import Mathlib

/-!
Shallow embedding of the `schnell` HTTP server (request parser, router,
response serializer, connection dispatch) together with theorems settling
the specification claims about it.

Modelling conventions:
* Rust `String`/`&str` values are Lean `String`s; where Rust counts bytes
  (`String::len`, `Content-Length`) we count UTF-8 bytes via `Char.utf8Size`.
* The raw request byte stream is modelled as a list of `Char`s (one `Char`
  per byte; all inputs exercised by the claims are ASCII) plus a terminal
  event describing what the socket does once the data runs out.
* Rust `HashMap` values are association lists whose `insert` replaces the
  value of an existing key in place; serialization sorts keys, so the
  unordered nature of `HashMap` is irrelevant to every observable output.
* Fallible Rust functions returning `Result`/`Option` become `Except`/`Option`.
-/

set_option maxRecDepth 10000

namespace Schnell

/-! ### Basic `str` utilities (models of the Rust standard library calls used) -/
/-- Rust ASCII whitespace as used by `str::trim` / `split_whitespace` on the
ASCII inputs this development deals with (U+0009–U+000D and U+0020). -/
def isRustWS (c : Char) : Bool := (9 ≤ c.toNat && c.toNat ≤ 13) || c.toNat = 32

/-- Helper for `splitOnChar`: the first token and the remaining tokens. -/
def splitOnCharCore (sep : Char) : List Char → List Char × List (List Char)
  | [] => ([], [])
  | c :: cs =>
    if c = sep then
      ([], (splitOnCharCore sep cs).1 :: (splitOnCharCore sep cs).2)
    else
      (c :: (splitOnCharCore sep cs).1, (splitOnCharCore sep cs).2)

/-- Rust `str::split(sep)`: `""` yields `[""]`, a trailing separator yields a
trailing empty part. -/
def splitOnChar (sep : Char) (l : List Char) : List (List Char) :=
  (splitOnCharCore sep l).1 :: (splitOnCharCore sep l).2

/-- Rust `str::split_once(sep)`: split at the first occurrence only. -/
def splitOnceChar (sep : Char) : List Char → Option (List Char × List Char)
  | [] => none
  | c :: cs =>
    if c = sep then some ([], cs)
    else (splitOnceChar sep cs).map (fun p => (c :: p.1, p.2))

/-- Rust `str::trim` (both ends). -/
def trimChars (l : List Char) : List Char :=
  ((l.dropWhile isRustWS).reverse.dropWhile isRustWS).reverse

/-- Helper for `splitWhitespace`: `acc` holds the current token reversed. -/
def splitWhitespaceGo (acc : List Char) : List Char → List (List Char)
  | [] => if acc.isEmpty then [] else [acc.reverse]
  | c :: cs =>
    if isRustWS c then
      if acc.isEmpty then splitWhitespaceGo [] cs
      else acc.reverse :: splitWhitespaceGo [] cs
    else splitWhitespaceGo (c :: acc) cs

/-- Rust `str::split_whitespace`: maximal non-whitespace runs, no empty tokens. -/
def splitWhitespace (l : List Char) : List (List Char) :=
  splitWhitespaceGo [] l

/-- Rust `String::len`: the UTF-8 byte length of a string. -/
def utf8Len (s : String) : Nat := s.data.foldl (fun n c => n + c.utf8Size) 0

/-- Rust `str::to_lowercase` restricted to its ASCII behaviour
(all header names this development touches are ASCII). -/
def lowercase (s : String) : String := ⟨s.data.map Char.toLower⟩

/-! ### `common.rs`: methods and versions -/
/-- Embedding of `common.rs` `HttpMethod`. -/
inductive HttpMethod
  | GET | POST | PUT | PATCH | DELETE | HEAD | OPTIONS | TRACE
  deriving DecidableEq, Repr

/-- Embedding of `common.rs` `Version`. -/
inductive Version
  | HTTP1_1 | HTTP2_0
  deriving DecidableEq, Repr

/-- Embedding of `common.rs` `HttpMethod::from_str`: uppercase the token, then match. -/
def HttpMethod.from_str (s : String) : Option HttpMethod :=
  match (⟨s.data.map Char.toUpper⟩ : String) with
  | "GET" => some .GET
  | "POST" => some .POST
  | "PUT" => some .PUT
  | "PATCH" => some .PATCH
  | "DELETE" => some .DELETE
  | "HEAD" => some .HEAD
  | "OPTIONS" => some .OPTIONS
  | "TRACE" => some .TRACE
  | _ => none

/-- Embedding of `common.rs` `Version::from_str`: exact string match. -/
def Version.from_str (s : String) : Option Version :=
  match s with
  | "HTTP/1.1" => some .HTTP1_1
  | "HTTP/2.0" => some .HTTP2_0
  | _ => none

/-! ### `routing.rs`: routes, matching, resolution -/
/-- Embedding of `routing.rs` `Route`; the handler is kept abstract in the type `H`. -/
structure Route (H : Type) where
  method : HttpMethod
  path : String
  handler : H

/-- Embedding of `routing.rs` `RouteError`. -/
inductive RouteError
  | NotFound | MethodNotAllowed | RouteAlreadyExists
  deriving DecidableEq, Repr

/-- Rust `str::starts_with(':')` on a segment. -/
def startsWithColon : List Char → Bool
  | ':' :: _ => true
  | _ => false

/-- Embedding of `routing.rs` `match_route`: split pattern and path on `/`; lengths must be
equal; a `:`-segment matches anything, other segments match literally. -/
def match_route (route incoming : String) : Bool :=
  let route_parts := splitOnChar '/' route.data
  let incoming_parts := splitOnChar '/' incoming.data
  if route_parts.length ≠ incoming_parts.length then false
  else (route_parts.zip incoming_parts).all fun p => startsWithColon p.1 || p.1 == p.2

/-- Embedding of `routing.rs` `RouteResolver::resolve`: scan in registration order; the
first route whose path matches decides the outcome. -/
def resolve {H : Type} (path : String) (method : HttpMethod) :
    List (Route H) → Except RouteError (Route H)
  | [] => .error .NotFound
  | route :: rest =>
    if match_route route.path path then
      if route.method = method then .ok route else .error .MethodNotAllowed
    else resolve path method rest

/-! ### `server.rs` `Server::register_route` -/
/-- Embedding of `server.rs` `impl HTTPHandler for Server`, `register_route`: if an exact
`(path, method)` pair exists at index `i`, the new route is passed to
`Vec::insert` at `i` (which shifts the existing entries right); otherwise the
new route is pushed at the end. -/
def register_route {H : Type} (routes : List (Route H)) (path : String)
    (method : HttpMethod) (handler : H) : List (Route H) :=
  match routes.findIdx? (fun r => r.path == path && r.method == method) with
  | some matching_route_idx =>
    routes.insertIdx matching_route_idx ⟨method, path, handler⟩
  | none => routes ++ [⟨method, path, handler⟩]

/-! ### `request.rs`: the request parser

The socket is modelled as the list of bytes it will still deliver (one
`Char` per byte) plus a terminal event `EndKind` describing what a read
observes once the bytes run out.  `Conn` additionally carries the internal
buffer of the `BufReader` wrapped around the socket (capacity 8192 bytes,
the Rust default), because `Request::read` inspects `buffer.buffer().len()`.
-/
/-- What the socket yields once its data is exhausted: an orderly EOF
(`read` returns `Ok(0)`) or an `std::io::ErrorKind`. -/
inductive EndKind
  | eof | timedOut | reset | aborted | brokenPipe | otherErr
  deriving DecidableEq, Repr

/-- A `BufReader<TcpStream>`: internal buffer, undelivered socket bytes,
and the terminal event. -/
structure Conn where
  buf : List Char
  data : List Char
  ending : EndKind
  deriving DecidableEq, Repr

/-- A fresh `BufReader::new(stream)`: empty internal buffer. -/
def Conn.fresh (data : List Char) (ending : EndKind) : Conn :=
  ⟨[], data, ending⟩

/-- Default `BufReader` capacity (8 KiB). -/
def BUF_CAP : Nat := 8192

/-- Embedding of `request.rs` `RequestError` (the `std::io::Error` payloads carried by
`ReadError`/`InvalidRequest`/`ParseError` are only logged and are dropped). -/
inductive RequestError
  | ReadError | InvalidRequest | RequestTooLarge
  | ConnectionClosed | ConnectionTimedOut | ParseError
  deriving DecidableEq, Repr

/-- The `ErrorKind` classification used by both the header loop and
`parse_body`: `UnexpectedEof → ConnectionClosed`, `TimedOut →
ConnectionTimedOut`, `ConnectionReset | ConnectionAborted | BrokenPipe →
ConnectionClosed`, anything else → `ReadError`. -/
def classifyIOErr : EndKind → RequestError
  | .eof => .ConnectionClosed
  | .timedOut => .ConnectionTimedOut
  | .reset => .ConnectionClosed
  | .aborted => .ConnectionClosed
  | .brokenPipe => .ConnectionClosed
  | .otherErr => .ReadError

/-- One `BufRead::read_line` call, in closed form.  The Rust loop
alternately scans the buffered bytes for `\n` and refills the empty buffer
with up to `BUF_CAP` bytes from the socket, so: if a newline exists at
index `i` of `buf ++ data`, the line is everything through it; when the
line ran `o = i + 1 - buf.length` bytes into the socket, whole `BUF_CAP`
chunks were consumed and the chunk containing the newline (index
`k = (o-1)/BUF_CAP`) stays partially buffered.  Without a newline the
whole stream is read and the next refill observes the terminal event:
`Ok(0)` for EOF (the partial line is returned first), an error otherwise. -/
def read_line (c : Conn) : Except EndKind (List Char × Conn) :=
  match (c.buf ++ c.data).findIdx? (fun ch => ch == '\n') with
  | some i =>
    if i + 1 ≤ c.buf.length then
      .ok ((c.buf ++ c.data).take (i + 1), { c with buf := c.buf.drop (i + 1) })
    else
      .ok ((c.buf ++ c.data).take (i + 1),
        { c with
          buf := (c.data.take
              (BUF_CAP * ((i + 1 - c.buf.length - 1) / BUF_CAP + 1))).drop
            (i + 1 - c.buf.length),
          data := c.data.drop
            (BUF_CAP * ((i + 1 - c.buf.length - 1) / BUF_CAP + 1)) })
  | none =>
    match c.ending with
    | .eof => .ok (c.buf ++ c.data, { c with buf := [], data := [] })
    | e => .error e

/-- The status-line/header loop of `Request::read` (lines until the first
blank line, trimmed; a partial final line before EOF is kept; `Ok(0)` with
no lines at all is `ConnectionClosed`).  `fuel` only bounds the iteration
count; `Request.read` passes enough of it (`read_lines_loop_isSome`). -/
def read_lines_loop (fuel : Nat) (c : Conn) (lines : List String) :
    Option (Except RequestError (List String × Conn)) :=
  match fuel with
  | 0 => none
  | fuel + 1 =>
    match read_line c with
    | .error e => some (.error (classifyIOErr e))
    | .ok (l, c') =>
      if l.isEmpty then
        some (if lines.isEmpty then .error .ConnectionClosed else .ok (lines, c'))
      else if (trimChars l).isEmpty then
        some (.ok (lines, c'))
      else
        read_lines_loop fuel c' (lines ++ [⟨trimChars l⟩])

/-- Embedding of `request.rs` `Request`. -/
structure Request where
  method : HttpMethod
  path : String
  version : Version
  headers : List (String × String)
  body : String
  params : List (String × String)
  query : List (String × String)
  deriving DecidableEq, Repr

/-- Embedding of `HashMap::insert`: replace the value of an existing key in place,
otherwise append. -/
def insertAssoc (m : List (String × String)) (k v : String) :
    List (String × String) :=
  match m with
  | [] => [(k, v)]
  | (k', v') :: rest =>
    if k' = k then (k, v) :: rest else (k', v') :: insertAssoc rest k v

/-- Embedding of `HashMap::get`. -/
def lookupAssoc (m : List (String × String)) (k : String) : Option String :=
  match m with
  | [] => none
  | (k', v') :: rest => if k' = k then some v' else lookupAssoc rest k

/-- Embedding of `request.rs` `Request::parse_request_line`: exactly three
whitespace-separated tokens; unknown method → `ParseError`; bad version →
`InvalidRequest`. -/
def parse_request_line (line : String) :
    Except RequestError (HttpMethod × String × Version) :=
  match splitWhitespace line.data with
  | [p0, p1, p2] =>
    match HttpMethod.from_str ⟨p0⟩ with
    | none => .error .ParseError
    | some method =>
      match Version.from_str ⟨p2⟩ with
      | none => .error .InvalidRequest
      | some version => .ok (method, ⟨p1⟩, version)
  | _ => .error .ParseError

/-- Embedding of `request.rs` `Request::parse_headers`: split each line at the first
`:`; key trimmed and lowercased, value trimmed; lines without a colon are
skipped; later duplicates overwrite earlier ones. -/
def parse_headers (lines : List String) : List (String × String) :=
  lines.foldl (fun headers line =>
    match splitOnceChar ':' line.data with
    | some (key, value) =>
      insertAssoc headers (lowercase ⟨trimChars key⟩) ⟨trimChars value⟩
    | none => headers) []

/-- Embedding of `request.rs` `Request::extract_query`: split the target at the first
`?`; no `?` leaves the raw query empty. -/
def extract_query (url : String) : String × String :=
  match splitOnceChar '?' url.data with
  | some (a, b) => (⟨a⟩, ⟨b⟩)
  | none => (url, "")

/-- Embedding of `request.rs` `Request::parse_query`: split on `&`, each pair at the
first `=` (no `=` yields an empty value); later duplicate keys win. -/
def parse_query (url : String) : List (String × String) :=
  (splitOnChar '&' url.data).foldl (fun m pair =>
    match splitOnceChar '=' pair with
    | some (k, v) => insertAssoc m ⟨k⟩ ⟨v⟩
    | none => insertAssoc m ⟨pair⟩ "") []

/-- Rust `str::parse::<usize>`: optional leading `+`, at least one digit,
value within `usize` (64-bit). -/
def parseUsize (s : String) : Option Nat :=
  let ds := match s.data with
    | '+' :: rest => rest
    | l => l
  if ds.isEmpty then none
  else if ds.all Char.isDigit then
    let n := ds.foldl (fun acc c => acc * 10 + (c.toNat - 48)) 0
    if n < 2 ^ 64 then some n else none
  else none

/-- The 10 MiB budget named by the oversized-request check. -/
def TEN_MIB : Nat := 1024 * 1024 * 10

/-- Embedding of `request.rs` `Request::parse_body`: read a body only for a parseable
non-zero `content-length`; `read_exact` semantics — all `content_length`
bytes or the classified terminal error, never a partial body.  (The
`String::from_utf8` step is the identity here because streams are modelled
as text.) -/
def parse_body (c : Conn) (headers : List (String × String)) :
    Except RequestError (String × Conn) :=
  if ((lookupAssoc headers "content-length").bind parseUsize).getD 0 = 0 then
    .ok ("", c)
  else if ((lookupAssoc headers "content-length").bind parseUsize).getD 0 ≤
      (c.buf ++ c.data).length then
    .ok (⟨(c.buf ++ c.data).take (((lookupAssoc headers "content-length").bind parseUsize).getD 0)⟩,
      { c with buf := [],
               data := (c.buf ++ c.data).drop
                 (((lookupAssoc headers "content-length").bind parseUsize).getD 0) })
  else .error (classifyIOErr c.ending)

/-- Embedding of `request.rs` `Request::read`: header loop, emptiness check, the
`buffer.buffer().len() > 10 MiB` check, request line, headers, body,
query extraction.  The fuel `none` branch is unreachable
(`read_lines_loop_isSome`). -/
def Request.read (c : Conn) : Except RequestError Request :=
  match read_lines_loop (c.buf.length + c.data.length + 1) c [] with
  | none => .error .ReadError
  | some (.error e) => .error e
  | some (.ok ([], _)) => .error .ConnectionClosed
  | some (.ok (line0 :: restLines, c')) =>
    if c'.buf.length > TEN_MIB then .error .RequestTooLarge
    else
      match parse_request_line line0 with
      | .error e => .error e
      | .ok (method, rawPath, version) =>
        match parse_body c' (parse_headers restLines) with
        | .error e => .error e
        | .ok bodyState =>
          .ok { method := method, path := (extract_query rawPath).1,
                version := version, headers := parse_headers restLines,
                body := bodyState.1, params := [],
                query := parse_query (extract_query rawPath).2 }

/-! ### `utils.rs`: header-key canonicalization -/
/-- The regex character class `[a-zA-Z0-9]` of `sanitize_header_key`. -/
def isAlnumA (c : Char) : Bool := c.isAlpha || c.isDigit

/-- Helper for `collapseNonAlnum`; `inRun` records whether the previous
character was part of a non-alphanumeric run already replaced by `-`. -/
def collapseGo (inRun : Bool) : List Char → List Char
  | [] => []
  | c :: cs =>
    if isAlnumA c then c :: collapseGo false cs
    else if inRun then collapseGo true cs
    else '-' :: collapseGo true cs

/-- The `re.replace_all(key, "-")` step of `sanitize_header_key` for
`re = [^a-zA-Z0-9]+`: each maximal run of non-alphanumeric characters
becomes a single `-`. -/
def collapseNonAlnum (l : List Char) : List Char := collapseGo false l

/-- Embedding of `utils.rs` `to_title_case`: uppercase the first character, lowercase
the rest (only ever applied to ASCII-alphanumeric tokens, where the
Unicode and ASCII case maps agree). -/
def toTitleCase : List Char → List Char
  | [] => []
  | c :: cs => c.toUpper :: cs.map Char.toLower

/-- Rust `Vec::join("-")`. -/
def joinDash : List (List Char) → List Char
  | [] => []
  | [t] => t
  | t :: ts => t ++ '-' :: joinDash ts

/-- Rust `str::trim_end_matches("-")`: remove every trailing `-`. -/
def trimEndDash (l : List Char) : List Char :=
  (l.reverse.dropWhile (fun c => c == '-')).reverse

/-- Embedding of `utils.rs` `sanitize_header_key`: collapse non-alphanumeric runs to a
single `-`, title-case each `-`-separated token, re-join, trim trailing
`-`. -/
def sanitize_header_key (s : String) : String :=
  ⟨trimEndDash (joinDash ((splitOnChar '-' (collapseNonAlnum s.data)).map toTitleCase))⟩

/-! ### `response.rs` / `http/response.rs`: the response value and serializer

Both iterations share `HttpResponse`'s fields and a byte-identical
`to_string`; they differ in the header-setting operation: `response.rs`
`with_header` stores the caller's key verbatim, `http/response.rs`
`header` first applies `sanitize_header_key`.  Both are embedded.
-/
/-- Modelled from the spec: the constant `constants::HTTP_VERSION` lives in
`constants.rs`, which is not among the provided sources; the spec's
status-line grammar and its end-to-end example (§8) fix it to `HTTP/1.1`. -/
def HTTP_VERSION : String := "HTTP/1.1"

/-- CRLF line terminator. -/
def CRLF : String := "\r\n"

/-- Embedding of `HttpResponse` (identical fields in `response.rs` and
`http/response.rs`). -/
structure HttpResponse where
  status_code : Nat
  content_type : String
  body : String
  headers : List (String × String)
  cookies : List String
  deriving DecidableEq, Repr

/-- Embedding of `HttpResponse::new`. -/
def HttpResponse.new (status_code : Nat) : HttpResponse :=
  ⟨status_code, "text/plain", "", [], []⟩

/-- The fixed status-code → reason-phrase table (`get_status_text`). -/
def get_status_text (code : Nat) : String :=
  match code with
  | 100 => "Continue" | 101 => "Switching Protocols" | 102 => "Processing"
  | 103 => "Early Hints"
  | 200 => "OK" | 201 => "Created" | 202 => "Accepted"
  | 203 => "Non-Authoritative Information" | 204 => "No Content"
  | 205 => "Reset Content" | 206 => "Partial Content" | 207 => "Multi-Status"
  | 208 => "Already Reported" | 226 => "IM Used"
  | 300 => "Multiple Choices" | 301 => "Moved Permanently" | 302 => "Found"
  | 303 => "See Other" | 304 => "Not Modified" | 307 => "Temporary Redirect"
  | 308 => "Permanent Redirect"
  | 400 => "Bad Request" | 401 => "Unauthorized" | 403 => "Forbidden"
  | 404 => "Not Found" | 405 => "Method Not Allowed" | 406 => "Not Acceptable"
  | 407 => "Proxy Authentication Required" | 408 => "Request Timeout"
  | 409 => "Conflict" | 410 => "Gone" | 411 => "Length Required"
  | 412 => "Precondition Failed" | 413 => "Payload Too Large"
  | 414 => "URI Too Long" | 415 => "Unsupported Media Type"
  | 416 => "Range Not Satisfiable" | 417 => "Expectation Failed"
  | 418 => "I'm a teapot" | 421 => "Misdirected Request"
  | 422 => "Unprocessable Entity" | 423 => "Locked" | 424 => "Failed Dependency"
  | 425 => "Too Early" | 426 => "Upgrade Required"
  | 428 => "Precondition Required" | 429 => "Too Many Requests"
  | 431 => "Request Header Fields Too Large"
  | 451 => "Unavailable For Legal Reasons"
  | 500 => "Internal Server Error" | 501 => "Not Implemented"
  | 502 => "Bad Gateway" | 503 => "Service Unavailable"
  | 504 => "Gateway Timeout" | 505 => "HTTP Version Not Supported"
  | 506 => "Variant Also Negotiates" | 507 => "Insufficient Storage"
  | 508 => "Loop Detected" | 510 => "Not Extended"
  | 511 => "Network Authentication Required"
  | _ => "Unknown"

/-- Rust `String`/`&str` `Ord`: lexicographic byte order (code-point order
coincides with byte order under UTF-8). -/
def lexLeB : List Char → List Char → Bool
  | [], _ => true
  | _ :: _, [] => false
  | a :: as, b :: bs => if a < b then true else if b < a then false else lexLeB as bs

/-- Key order used when sorting the custom-header map for serialization. -/
def keyLe (p q : String × String) : Prop := lexLeB p.1.data q.1.data = true

instance : DecidableRel keyLe := fun p q =>
  inferInstanceAs (Decidable (lexLeB p.1.data q.1.data = true))

/-- Embedding of `HttpResponse::to_string`: status line, `Content-Type`,
`Content-Length` computed from the body's byte length, the header map
rendered in ascending key order (the source collects `HashMap` keys, sorts
them and looks each up — with the map's unique keys this is sorting the
pairs by key), one `Set-Cookie` line per cookie in insertion order, a
blank line, the body. -/
def HttpResponse.to_string (r : HttpResponse) : String :=
  HTTP_VERSION ++ " " ++ Nat.repr r.status_code ++ " "
    ++ get_status_text r.status_code ++ CRLF
  ++ "Content-Type: " ++ r.content_type ++ CRLF
  ++ "Content-Length: " ++ Nat.repr (utf8Len r.body) ++ CRLF
  ++ String.join ((List.insertionSort keyLe r.headers).map
      (fun p => p.1 ++ ": " ++ p.2 ++ CRLF))
  ++ String.join (r.cookies.map (fun cookie => "Set-Cookie: " ++ cookie ++ CRLF))
  ++ CRLF
  ++ r.body

/-- Embedding of `response.rs` `HttpResponse::with_header`: insert the key verbatim. -/
def HttpResponse.with_header (r : HttpResponse) (key value : String) : HttpResponse :=
  { r with headers := insertAssoc r.headers key value }

/-- Embedding of `http/response.rs` `HttpResponse::header`: sanitize the key, then insert. -/
def HttpResponse.header (r : HttpResponse) (key value : String) : HttpResponse :=
  { r with headers := insertAssoc r.headers (sanitize_header_key key) value }

/-- Embedding of `HttpResponse::with_content_type` / `content_type`. -/
def HttpResponse.with_content_type (r : HttpResponse) (ct : String) : HttpResponse :=
  { r with content_type := ct }

/-- Embedding of `HttpResponse::with_body` / `body`. -/
def HttpResponse.with_body (r : HttpResponse) (b : String) : HttpResponse :=
  { r with body := b }

/-- Embedding of `HttpResponse::with_status` / `status`. -/
def HttpResponse.with_status (r : HttpResponse) (code : Nat) : HttpResponse :=
  { r with status_code := code }

/-- Embedding of `HttpResponse::text`. -/
def HttpResponse.text (r : HttpResponse) (b : String) : HttpResponse :=
  { r with content_type := "text/plain", body := b }

/-- Embedding of `HttpResponse::html`. -/
def HttpResponse.html (r : HttpResponse) (b : String) : HttpResponse :=
  { r with content_type := "text/html", body := b }

/-- Embedding of `HttpResponse::with_cookie`: push a pre-assembled cookie string. -/
def HttpResponse.with_cookie (r : HttpResponse) (cookie : String) : HttpResponse :=
  { r with cookies := r.cookies ++ [cookie] }

/-- Status shorthands used by the dispatcher. -/
def HttpResponse.ok : HttpResponse := .new 200

def HttpResponse.not_found : HttpResponse := .new 404

def HttpResponse.method_not_allowed : HttpResponse := .new 405

def HttpResponse.internal_server_error : HttpResponse := .new 500

def HttpResponse.request_entity_too_large : HttpResponse := .new 413

/-! ### `server.rs` `Server::handle_connection` -/
/-- Embedding of `routing.rs` `Handler`: `fn(&Request) -> std::io::Result<HttpResponse>`;
the `io::Error` failure is opaque to the dispatcher. -/
def Handler : Type := Request → Except Unit HttpResponse

/-- Embedding of `server.rs` `Server::handle_connection` as a function from the
connection's incoming bytes to the bytes written back (`none` when the
connection is dropped silently).  `RouteAlreadyExists` has no arm in the
source match and is unreachable from `resolve`; it is mapped to `none`. -/
def handle_connection (routes : List (Route Handler)) (c : Conn) : Option String :=
  match Request.read c with
  | .error .ReadError | .error .ParseError | .error .InvalidRequest =>
    some HttpResponse.internal_server_error.to_string
  | .error .RequestTooLarge =>
    some HttpResponse.request_entity_too_large.to_string
  | .error .ConnectionClosed => none
  | .error .ConnectionTimedOut => none
  | .ok request =>
    match resolve request.path request.method routes with
    | .error .MethodNotAllowed => some HttpResponse.method_not_allowed.to_string
    | .error .NotFound => some HttpResponse.not_found.to_string
    | .error .RouteAlreadyExists => none
    | .ok route =>
      match route.handler request with
      | .ok response => some response.to_string
      | .error _ => some HttpResponse.internal_server_error.to_string

/-- The two example handlers of the spec's end-to-end scenario (§8): the
`GET /` handler and the `GET /about` handler returning a 200 html body. -/
def rootHandler : Handler := fun _ => .ok HttpResponse.ok

/-- The `GET /about` handler of the end-to-end example. -/
def aboutHandler : Handler := fun _ => .ok (HttpResponse.ok.html "<h1>About page</h1>")

/-- The example server's route table: exactly `GET /` and `GET /about`
registered through `register_route`. -/
def exampleRoutes : List (Route Handler) :=
  register_route (register_route [] "/" .GET rootHandler) "/about" .GET aboutHandler

/-! ### C5: proof-side predicates and the spec-side serializer -/
/-- No two adjacent `-` characters. -/
def noDD : List Char → Bool
  | [] => true
  | a :: t =>
    (match t.head? with
     | some b => !(a == '-' && b == '-')
     | none => true) && noDD t

/-- Every token other than the first and the last is non-empty. -/
def midOK : List (List Char) → Bool
  | [] => true
  | [_] => true
  | _ :: t :: ts => (ts.isEmpty || !t.isEmpty) && midOK (t :: ts)

/-- Key order by canonical (sanitized) key, following the spec's words
"sorted lexicographically by canonical key". -/
def specKeyLe (p q : String × String) : Prop :=
  lexLeB (sanitize_header_key p.1).data (sanitize_header_key q.1).data = true

instance : DecidableRel specKeyLe := fun p q =>
  inferInstanceAs
    (Decidable (lexLeB (sanitize_header_key p.1).data (sanitize_header_key q.1).data = true))

/-- The serialization format as the spec words it (§4.3): status line
`<version> <code> <reason phrase>`, `Content-Type`, `Content-Length`
computed from the body's byte length, the remaining custom headers sorted
lexicographically by canonical key, one `Set-Cookie` line per cookie in
insertion order, a blank line, the body verbatim. -/
def specSerialize (r : HttpResponse) : String :=
  HTTP_VERSION ++ " " ++ Nat.repr r.status_code ++ " "
    ++ get_status_text r.status_code ++ CRLF
  ++ "Content-Type: " ++ r.content_type ++ CRLF
  ++ "Content-Length: " ++ Nat.repr (utf8Len r.body) ++ CRLF
  ++ String.join ((List.insertionSort specKeyLe r.headers).map
      (fun p => p.1 ++ ": " ++ p.2 ++ CRLF))
  ++ String.join (r.cookies.map (fun cookie => "Set-Cookie: " ++ cookie ++ CRLF))
  ++ CRLF
  ++ r.body

/-- The pure response-configuration operations of `http/response.rs`
(§4.3 "a sequence of pure configuration steps"). -/
inductive ROp
  | setStatus (code : Nat)
  | setContentType (ct : String)
  | setBody (b : String)
  | setHeader (k v : String)
  | addCookie (c : String)

/-- Apply one configuration step. -/
def applyOp (r : HttpResponse) : ROp → HttpResponse
  | .setStatus code => r.with_status code
  | .setContentType ct => r.with_content_type ct
  | .setBody b => r.with_body b
  | .setHeader k v => r.header k v
  | .addCookie c => r.with_cookie c

/-- A response built from `HttpResponse::new(code)` by a sequence of
configuration steps. -/
def build (code : Nat) (ops : List ROp) : HttpResponse :=
  ops.foldl applyOp (HttpResponse.new code)

/-- Remove trailing empty tokens from a token list. -/
def stripTrailingEmpties (T : List (List Char)) : List (List Char) :=
  (T.reverse.dropWhile List.isEmpty).reverse

end Schnell

open Schnell

namespace Schnell

/-! ### Helper lemmas -/
theorem splitOnceChar_eq_none {sep : Char} {l : List Char}
    (h : l.contains sep = false) : splitOnceChar sep l = none := by
  induction l with
  | nil => rfl
  | cons c cs ih =>
    simp only [List.contains_cons, Bool.or_eq_false_iff] at h
    simp only [splitOnceChar]
    rw [if_neg, ih h.2]
    · rfl
    · intro hc
      subst hc
      simp at h

theorem insertAssoc_ne_nil (m : List (String × String)) (k v : String) :
    insertAssoc m k v ≠ [] := by
  cases m with
  | nil => simp [insertAssoc]
  | cons p rest =>
    simp only [insertAssoc]
    split <;> simp

theorem parse_query_foldl_ne_nil (l : List (List Char)) (m : List (String × String))
    (h : l ≠ [] ∨ m ≠ []) :
    l.foldl (fun m pair =>
      match splitOnceChar '=' pair with
      | some (k, v) => insertAssoc m ⟨k⟩ ⟨v⟩
      | none => insertAssoc m ⟨pair⟩ "") m ≠ [] := by
  induction l generalizing m with
  | nil =>
    rcases h with h | h
    · exact absurd rfl h
    · simpa using h
  | cons x xs ih =>
    simp only [List.foldl_cons]
    apply ih
    right
    split <;> apply insertAssoc_ne_nil

theorem parse_query_ne_nil (s : String) : parse_query s ≠ [] := by
  unfold parse_query splitOnChar
  exact parse_query_foldl_ne_nil _ _ (Or.inl (by simp))

theorem read_ok_query {c : Conn} {req : Request} (h : Request.read c = .ok req) :
    ∃ q, req.query = parse_query q := by
  unfold Request.read at h
  iterate 8 all_goals try split at h
  all_goals simp at h
  subst h
  exact ⟨_, rfl⟩

theorem resolve_notfound_iff {H : Type} (path : String) (m : HttpMethod)
    (routes : List (Route H)) :
    resolve path m routes = .error .NotFound ↔
      ∀ r ∈ routes, match_route r.path path = false := by
  induction routes with
  | nil => simp [resolve]
  | cons r rest ih =>
    by_cases hm : match_route r.path path = true
    · simp only [resolve, hm, if_true]
      constructor
      · intro h
        split at h <;> simp_all
      · intro hall
        have := hall r (List.mem_cons_self r rest)
        rw [this] at hm
        exact absurd hm (by simp)
    · have hm' : match_route r.path path = false := by simpa using hm
      simp only [resolve, hm', Bool.false_eq_true, if_false, ih]
      constructor
      · intro h r' hr'
        rcases List.mem_cons.mp hr' with rfl | hmem
        · exact hm'
        · exact h r' hmem
      · intro h r' hr'
        exact h r' (List.mem_cons_of_mem _ hr')

theorem resolve_eq_find {H : Type} (path : String) (m : HttpMethod)
    (routes : List (Route H)) :
    resolve path m routes =
      match routes.find? (fun r => match_route r.path path) with
      | none => .error .NotFound
      | some r => if r.method = m then .ok r else .error .MethodNotAllowed := by
  induction routes with
  | nil => rfl
  | cons r rest ih =>
    simp only [resolve, List.find?]
    by_cases hm : match_route r.path path
    · simp [hm]
    · simp only [hm, if_false, Bool.false_eq_true, ih]

theorem zip_all_iff_forall₂ (p : List Char → List Char → Bool) :
    ∀ (l₁ l₂ : List (List Char)),
      (l₁.length = l₂.length ∧ (l₁.zip l₂).all (fun q => p q.1 q.2)) ↔
        List.Forall₂ (fun a b => p a b = true) l₁ l₂ := by
  intro l₁
  induction l₁ with
  | nil =>
    intro l₂
    cases l₂ <;> simp
  | cons a t ih =>
    intro l₂
    cases l₂ with
    | nil => simp
    | cons b t₂ =>
      simp only [List.length_cons, List.zip_cons_cons, List.all_cons,
        List.forall₂_cons, Nat.add_right_cancel_iff, Bool.and_eq_true]
      rw [← ih t₂]
      tauto

/-- Extract the body length produced by a successful `parse_body` run:
with a parseable `content-length` of `n`, the body has exactly `n` bytes. -/
theorem parse_body_ok_length {c : Conn} {hdrs : List (String × String)}
    {b : String} {c₂ : Conn} (h : parse_body c hdrs = .ok (b, c₂))
    {s : String} {n : Nat} (hl : lookupAssoc hdrs "content-length" = some s)
    (hp : parseUsize s = some n) : b.data.length = n := by
  unfold parse_body at h
  rw [hl] at h
  simp only [Option.some_bind, hp, Option.getD_some] at h
  by_cases hn : n = 0
  · rw [if_pos hn] at h
    simp only [Except.ok.injEq, Prod.mk.injEq] at h
    rw [← h.1, hn]
    rfl
  · rw [if_neg hn] at h
    split at h
    · rename_i hle
      simp only [Except.ok.injEq, Prod.mk.injEq] at h
      rw [← h.1]
      simpa using hle
    · exact absurd h (by simp)

/-- A successful `Request.read` stores the body `parse_body` produced and
the headers `parse_headers` produced, unchanged. -/
theorem read_ok_body {c : Conn} {req : Request} (h : Request.read c = .ok req) :
    ∃ (c' : Conn) (bs : String × Conn),
      parse_body c' req.headers = .ok bs ∧ req.body = bs.1 := by
  unfold Request.read at h
  repeat' split at h
  all_goals simp at h
  subst h
  exact ⟨_, _, by assumption, rfl⟩

/-! ### Buffer-capacity invariants for `Request::read` (C8) -/
/-- Lemma: `read_line` keeps the internal buffer within the `BufReader` capacity:
fills bring in at most `BUF_CAP` bytes and consumption only shrinks the
buffer. -/
theorem read_line_buf_le {c : Conn} {l : List Char} {c' : Conn}
    (hcap : c.buf.length ≤ BUF_CAP) (h : read_line c = .ok (l, c')) :
    c'.buf.length ≤ BUF_CAP := by
  unfold read_line at h
  split at h
  · rename_i i hfind
    split at h
    · rename_i hle
      simp only [Except.ok.injEq, Prod.mk.injEq] at h
      rw [← h.2]
      simp only [List.length_drop]
      omega
    · rename_i hgt
      simp only [Except.ok.injEq, Prod.mk.injEq] at h
      rw [← h.2]
      simp only [List.length_drop, List.length_take]
      have hdiv := Nat.div_mul_le_self (i + 1 - c.buf.length - 1) BUF_CAP
      have hmul : BUF_CAP * ((i + 1 - c.buf.length - 1) / BUF_CAP + 1) =
          (i + 1 - c.buf.length - 1) / BUF_CAP * BUF_CAP + BUF_CAP := by ring
      have hcappos : 0 < BUF_CAP := by decide
      omega
  · split at h <;> simp_all
    obtain ⟨h1, h2⟩ := h
    subst h2
    simp

/-- Lemma: `read_line` makes progress: a non-empty line strictly shrinks the
total of buffered and undelivered bytes. -/
theorem read_line_measure {c : Conn} {l : List Char} {c' : Conn}
    (h : read_line c = .ok (l, c')) (hl : l ≠ []) :
    c'.buf.length + c'.data.length < c.buf.length + c.data.length := by
  unfold read_line at h
  split at h
  · rename_i i hfind
    have hi : i < (c.buf ++ c.data).length := (List.findIdx?_eq_some_iff_findIdx_eq.mp hfind).1
    simp only [List.length_append] at hi
    split at h
    · rename_i hle
      simp only [Except.ok.injEq, Prod.mk.injEq] at h
      rw [← h.2]
      simp only [List.length_drop]
      omega
    · rename_i hgt
      simp only [Except.ok.injEq, Prod.mk.injEq] at h
      rw [← h.2]
      simp only [List.length_drop, List.length_take]
      have hdiv := Nat.div_mul_le_self (i + 1 - c.buf.length - 1) BUF_CAP
      have hmul : BUF_CAP * ((i + 1 - c.buf.length - 1) / BUF_CAP + 1) =
          (i + 1 - c.buf.length - 1) / BUF_CAP * BUF_CAP + BUF_CAP := by ring
      have hcappos : 0 < BUF_CAP := by decide
      omega
  · split at h <;> simp_all
    obtain ⟨h1, h2⟩ := h
    subst h2
    simp only [List.length_nil]
    have hne : c.buf ++ c.data ≠ [] := by rw [h1]; exact hl
    have hpos : 0 < (c.buf ++ c.data).length := List.length_pos.mpr hne
    simp only [List.length_append] at hpos
    omega

/-- The header loop preserves the buffer-capacity bound. -/
theorem read_lines_loop_ok_buf :
    ∀ {fuel : Nat} {c : Conn} {lines ls : List String} {c' : Conn},
      c.buf.length ≤ BUF_CAP →
      read_lines_loop fuel c lines = some (.ok (ls, c')) →
      c'.buf.length ≤ BUF_CAP := by
  intro fuel
  induction fuel with
  | zero => intro c lines ls c' _ h; simp [read_lines_loop] at h
  | succ fuel ih =>
    intro c lines ls c' hcap h
    unfold read_lines_loop at h
    split at h
    · simp at h
    · rename_i l c₁ heq
      have hc₁ := read_line_buf_le hcap heq
      split at h
      · split at h
        · simp at h
        · simp only [Option.some.injEq, Except.ok.injEq, Prod.mk.injEq] at h
          rw [← h.2]
          exact hc₁
      · split at h
        · simp only [Option.some.injEq, Except.ok.injEq, Prod.mk.injEq] at h
          rw [← h.2]
          exact hc₁
        · exact ih hc₁ h

/-- The header loop only produces the I/O error classifications and
`ConnectionClosed` — never `RequestTooLarge`. -/
theorem read_lines_loop_error_ne :
    ∀ {fuel : Nat} {c : Conn} {lines : List String} {e : RequestError},
      read_lines_loop fuel c lines = some (.error e) → e ≠ .RequestTooLarge := by
  intro fuel
  induction fuel with
  | zero => intro c lines e h; simp [read_lines_loop] at h
  | succ fuel ih =>
    intro c lines e h
    unfold read_lines_loop at h
    split at h
    · rename_i e' heq
      simp only [Option.some.injEq, Except.error.injEq] at h
      rw [← h]
      cases e' <;> simp [classifyIOErr]
    · split at h
      · split at h <;> simp_all
        rw [← h]
        simp
      · split at h
        · simp at h
        · exact ih h

/-- Lemma: `parse_request_line` never reports `RequestTooLarge`. -/
theorem parse_request_line_error_ne {line : String} {e : RequestError}
    (h : parse_request_line line = .error e) : e ≠ .RequestTooLarge := by
  unfold parse_request_line at h
  repeat' split at h
  all_goals intro he
  all_goals subst he
  all_goals simp_all

/-- Lemma: `parse_body` never reports `RequestTooLarge`. -/
theorem parse_body_error_ne {c : Conn} {headers : List (String × String)}
    {e : RequestError} (h : parse_body c headers = .error e) :
    e ≠ .RequestTooLarge := by
  unfold parse_body at h
  repeat' split at h
  all_goals intro he
  all_goals subst he
  all_goals cases hend : c.ending <;> simp_all [classifyIOErr]

/-- Enough fuel makes the header loop total: one unit of fuel per byte of
the stream plus one suffices, since every iteration either terminates or
consumes at least one byte. -/
theorem read_lines_loop_isSome :
    ∀ {fuel : Nat} {c : Conn} {lines : List String},
      c.buf.length + c.data.length < fuel →
      (read_lines_loop fuel c lines).isSome := by
  intro fuel
  induction fuel with
  | zero => intro c lines h; omega
  | succ fuel ih =>
    intro c lines hlt
    unfold read_lines_loop
    split
    · simp
    · rename_i l c₁ heq
      split
      · split <;> simp
      · split
        · simp
        · rename_i hne hblank
          have hl : l ≠ [] := by
            intro hnil
            rw [hnil] at hne
            simp at hne
          have := read_line_measure heq hl
          exact ih (by omega)

/-! ### C5: canonical-key serialization — character-level case-map facts -/
theorem toNat_ofNat_valid {n : Nat} (h : n.isValidChar) : (Char.ofNat n).toNat = n := by
  simp [Char.ofNat, dif_pos h, Char.ofNatAux, Char.toNat, UInt32.toNat]

theorem char_eq_of_toNat {a b : Char} (h : a.toNat = b.toNat) : a = b :=
  Char.ext (UInt32.toNat.inj h)

theorem toUpper_toNat (c : Char) :
    (Char.toUpper c).toNat =
      if 97 ≤ c.toNat ∧ c.toNat ≤ 122 then c.toNat - 32 else c.toNat := by
  have hdef : Char.toUpper c =
      if c.toNat ≥ 97 ∧ c.toNat ≤ 122 then Char.ofNat (c.toNat - 32) else c := rfl
  rw [hdef]
  by_cases h : 97 ≤ c.toNat ∧ c.toNat ≤ 122
  · rw [if_pos h, if_pos h, toNat_ofNat_valid (Or.inl (by omega))]
  · rw [if_neg h, if_neg h]

theorem toLower_toNat (c : Char) :
    (Char.toLower c).toNat =
      if 65 ≤ c.toNat ∧ c.toNat ≤ 90 then c.toNat + 32 else c.toNat := by
  have hdef : Char.toLower c =
      if c.toNat ≥ 65 ∧ c.toNat ≤ 90 then Char.ofNat (c.toNat + 32) else c := rfl
  rw [hdef]
  by_cases h : 65 ≤ c.toNat ∧ c.toNat ≤ 90
  · rw [if_pos h, if_pos h, toNat_ofNat_valid (Or.inl (by omega))]
  · rw [if_neg h, if_neg h]

theorem toUpper_idem (c : Char) : (Char.toUpper c).toUpper = Char.toUpper c := by
  apply char_eq_of_toNat
  rw [toUpper_toNat, toUpper_toNat]
  split_ifs <;> omega

theorem toLower_idem (c : Char) : (Char.toLower c).toLower = Char.toLower c := by
  apply char_eq_of_toNat
  rw [toLower_toNat, toLower_toNat]
  split_ifs <;> omega

theorem dash_toNat : ('-' : Char).toNat = 45 := rfl

theorem toUpper_ne_dash {c : Char} (h : c ≠ '-') : Char.toUpper c ≠ '-' := by
  intro hc
  apply h
  apply char_eq_of_toNat
  have h2 := congrArg Char.toNat hc
  rw [toUpper_toNat, dash_toNat] at h2
  rw [dash_toNat]
  split at h2 <;> omega

theorem toLower_ne_dash {c : Char} (h : c ≠ '-') : Char.toLower c ≠ '-' := by
  intro hc
  apply h
  apply char_eq_of_toNat
  have h2 := congrArg Char.toNat hc
  rw [toLower_toNat, dash_toNat] at h2
  rw [dash_toNat]
  split at h2 <;> omega

theorem isAlnumA_ne_dash {c : Char} (h : isAlnumA c = true) : c ≠ '-' := by
  intro hc
  subst hc
  exact absurd h (by decide)

theorem isAlnumA_iff (c : Char) : isAlnumA c = true ↔
    (48 ≤ c.toNat ∧ c.toNat ≤ 57) ∨ (65 ≤ c.toNat ∧ c.toNat ≤ 90) ∨
      (97 ≤ c.toNat ∧ c.toNat ≤ 122) := by
  simp only [isAlnumA, Char.isAlpha, Char.isUpper, Char.isLower, Char.isDigit,
    Char.toNat, UInt32.le_def, BitVec.le_def, UInt32.toNat,
    Bool.or_eq_true, Bool.and_eq_true, decide_eq_true_eq, GE.ge]
  norm_num
  tauto

theorem isAlnumA_toUpper {c : Char} (h : isAlnumA c = true) :
    isAlnumA (Char.toUpper c) = true := by
  rw [isAlnumA_iff] at h ⊢
  rw [toUpper_toNat]
  split_ifs <;> omega

theorem isAlnumA_toLower {c : Char} (h : isAlnumA c = true) :
    isAlnumA (Char.toLower c) = true := by
  rw [isAlnumA_iff] at h ⊢
  rw [toLower_toNat]
  split_ifs <;> omega

theorem collapseGo_chars (b : Bool) (l : List Char) :
    ∀ c ∈ collapseGo b l, isAlnumA c = true ∨ c = '-' := by
  induction l generalizing b with
  | nil => simp [collapseGo]
  | cons x xs ih =>
    intro c hc
    simp only [collapseGo] at hc
    split at hc
    · rcases List.mem_cons.mp hc with rfl | hm
      · left; assumption
      · exact ih false c hm
    · split at hc
      · exact ih true c hc
      · rcases List.mem_cons.mp hc with rfl | hm
        · right; rfl
        · exact ih true c hm

theorem collapseGo_noDD (l : List Char) :
    noDD (collapseGo false l) = true ∧ noDD (collapseGo true l) = true ∧
      (collapseGo true l).head? ≠ some '-' := by
  induction l with
  | nil => exact ⟨rfl, rfl, by simp [collapseGo]⟩
  | cons x xs ih =>
    obtain ⟨ihf, iht, ihh⟩ := ih
    by_cases hx : isAlnumA x = true
    · have e1 : collapseGo false (x :: xs) = x :: collapseGo false xs := by
        simp [collapseGo, hx]
      have e2 : collapseGo true (x :: xs) = x :: collapseGo false xs := by
        simp [collapseGo, hx]
      have hnodd : noDD (x :: collapseGo false xs) = true := by
        simp only [noDD, Bool.and_eq_true]
        refine ⟨?_, ihf⟩
        cases hh : (collapseGo false xs).head? with
        | none => rfl
        | some b =>
          have := isAlnumA_ne_dash hx
          simp [this]
      refine ⟨by rw [e1]; exact hnodd, by rw [e2]; exact hnodd, ?_⟩
      rw [e2]
      simp only [List.head?_cons, ne_eq, Option.some.injEq]
      exact isAlnumA_ne_dash hx
    · have e1 : collapseGo false (x :: xs) = '-' :: collapseGo true xs := by
        simp [collapseGo, hx]
      have e2 : collapseGo true (x :: xs) = collapseGo true xs := by
        simp [collapseGo, hx]
      have hnodd : noDD ('-' :: collapseGo true xs) = true := by
        simp only [noDD, Bool.and_eq_true]
        refine ⟨?_, iht⟩
        cases hh : (collapseGo true xs).head? with
        | none => rfl
        | some b =>
          have hb : b ≠ '-' := by
            intro hbe
            subst hbe
            exact ihh hh
          simp [hb]
      exact ⟨by rw [e1]; exact hnodd, by rw [e2]; exact iht, by rw [e2]; exact ihh⟩

theorem collapseGo_fix (l : List Char)
    (hchars : ∀ c ∈ l, isAlnumA c = true ∨ c = '-')
    (hnodd : noDD l = true) :
    collapseGo false l = l ∧ (l.head? ≠ some '-' → collapseGo true l = l) := by
  induction l with
  | nil => exact ⟨rfl, fun _ => rfl⟩
  | cons x xs ih =>
    have hchars' : ∀ c ∈ xs, isAlnumA c = true ∨ c = '-' := fun c hc =>
      hchars c (List.mem_cons_of_mem _ hc)
    have hnodd' : noDD xs = true := by
      simp only [noDD, Bool.and_eq_true] at hnodd
      exact hnodd.2
    obtain ⟨ihf, iht⟩ := ih hchars' hnodd'
    by_cases hx : isAlnumA x = true
    · exact ⟨by simp [collapseGo, hx, ihf], fun _ => by simp [collapseGo, hx, ihf]⟩
    · have hxd : x = '-' := by
        rcases hchars x (by simp) with h | h
        · exact absurd h hx
        · exact h
      subst hxd
      have hhead : xs.head? ≠ some '-' := by
        simp only [noDD, Bool.and_eq_true] at hnodd
        obtain ⟨h1, _⟩ := hnodd
        cases hh : xs.head? with
        | none => simp
        | some b =>
          rw [hh] at h1
          intro hcon
          injection hcon with hb
          subst hb
          simp at h1
      refine ⟨?_, fun hcon => absurd (rfl : ('-' :: xs).head? = some '-') hcon⟩
      have : collapseGo false ('-' :: xs) = '-' :: collapseGo true xs := by
        simp [collapseGo, hx]
      rw [this, iht hhead]

theorem joinDash_cons_cons (a t : List Char) (ts : List (List Char)) :
    joinDash (a :: t :: ts) = a ++ '-' :: joinDash (t :: ts) := rfl

theorem midOK_cons₂ (a t : List Char) (ts : List (List Char)) :
    midOK (a :: t :: ts) = ((ts.isEmpty || !t.isEmpty) && midOK (t :: ts)) := rfl

theorem core_sepfree_append (sep : Char) (t l : List Char)
    (h : ∀ c ∈ t, c ≠ sep) :
    splitOnCharCore sep (t ++ l) =
      (t ++ (splitOnCharCore sep l).1, (splitOnCharCore sep l).2) := by
  induction t with
  | nil => simp
  | cons x xs ih =>
    have hx : x ≠ sep := h x (by simp)
    simp only [List.cons_append, splitOnCharCore, if_neg hx]
    simp [ih (fun c hc => h c (List.mem_cons_of_mem _ hc))]

theorem core_sepfree (sep : Char) (t : List Char) (h : ∀ c ∈ t, c ≠ sep) :
    splitOnCharCore sep t = (t, []) := by
  have h2 := core_sepfree_append sep t [] h
  simpa [splitOnCharCore] using h2

theorem join_split (l : List Char) : joinDash (splitOnChar '-' l) = l := by
  induction l with
  | nil => rfl
  | cons x xs ih =>
    by_cases hx : x = '-'
    · subst hx
      have e : splitOnChar '-' ('-' :: xs) =
          [] :: (splitOnCharCore '-' xs).1 :: (splitOnCharCore '-' xs).2 := by
        simp [splitOnChar, splitOnCharCore]
      rw [e, joinDash_cons_cons]
      simp only [List.nil_append]
      rw [show (splitOnCharCore '-' xs).1 :: (splitOnCharCore '-' xs).2 =
        splitOnChar '-' xs from rfl, ih]
    · simp only [splitOnChar, splitOnCharCore, if_neg hx]
      cases hts : (splitOnCharCore '-' xs).2 with
      | nil =>
        simp only [joinDash]
        have : joinDash (splitOnChar '-' xs) = xs := ih
        simp only [splitOnChar, hts, joinDash] at this
        rw [this]
      | cons u us =>
        rw [joinDash_cons_cons]
        have : joinDash (splitOnChar '-' xs) = xs := ih
        simp only [splitOnChar, hts] at this
        rw [joinDash_cons_cons] at this
        rw [List.cons_append, this]

theorem split_join (T : List (List Char)) (hne : T ≠ [])
    (h : ∀ t ∈ T, ∀ c ∈ t, c ≠ '-') :
    splitOnChar '-' (joinDash T) = T := by
  induction T with
  | nil => exact absurd rfl hne
  | cons t ts ih =>
    cases ts with
    | nil =>
      have hcore := core_sepfree '-' t (h t (by simp))
      simp [splitOnChar, joinDash, hcore]
    | cons u us =>
      rw [joinDash_cons_cons]
      have hcore := core_sepfree_append '-' t ('-' :: joinDash (u :: us))
        (h t (by simp))
      simp only [splitOnChar, hcore, splitOnCharCore, if_pos rfl]
      have := ih (by simp) (fun t' ht' c hc => h t' (List.mem_cons_of_mem _ ht') c hc)
      simp only [splitOnChar] at this
      rw [List.cons.injEq] at this
      simp [this.1, this.2]

theorem core_first_empty {xs : List Char}
    (h : (splitOnCharCore '-' xs).1 = []) : xs = [] ∨ xs.head? = some '-' := by
  cases xs with
  | nil => exact Or.inl rfl
  | cons y ys =>
    by_cases hy : y = '-'
    · subst hy; exact Or.inr rfl
    · simp [splitOnCharCore, if_neg hy] at h

theorem splitDash_midOK (l : List Char) (h : noDD l = true) :
    midOK (splitOnChar '-' l) = true := by
  induction l with
  | nil => rfl
  | cons x xs ih =>
    have htl : noDD xs = true := by
      simp only [noDD, Bool.and_eq_true] at h
      exact h.2
    have ihm := ih htl
    by_cases hx : x = '-'
    · subst hx
      have hhead : xs.head? ≠ some '-' := by
        simp only [noDD, Bool.and_eq_true] at h
        obtain ⟨h1, _⟩ := h
        cases hh : xs.head? with
        | none => simp
        | some b =>
          rw [hh] at h1
          intro hcon
          injection hcon with hb
          subst hb
          simp at h1
      have e : splitOnChar '-' ('-' :: xs) =
          [] :: (splitOnCharCore '-' xs).1 :: (splitOnCharCore '-' xs).2 := by
        simp [splitOnChar, splitOnCharCore]
      rw [e]
      cases hts : (splitOnCharCore '-' xs).2 with
      | nil => rfl
      | cons u us =>
        have hne : (splitOnCharCore '-' xs).1 ≠ [] := by
          intro hnil
          rcases core_first_empty hnil with rfl | hh
          · simp [splitOnCharCore] at hts
          · exact hhead hh
        rw [midOK_cons₂, Bool.and_eq_true]
        constructor
        · rcases hc1 : (splitOnCharCore '-' xs).1 with _ | ⟨a, b⟩
          · exact absurd hc1 hne
          · simp
        · have h2 := ihm
          simp only [splitOnChar, hts] at h2
          exact h2
    · simp only [splitOnChar, splitOnCharCore, if_neg hx]
      cases hts : (splitOnCharCore '-' xs).2 with
      | nil => rfl
      | cons u us =>
        have h2 := ihm
        simp only [splitOnChar, hts] at h2
        rw [midOK_cons₂] at h2 ⊢
        exact h2

theorem dashfree_append_noDD {t l : List Char} (ht : ∀ c ∈ t, c ≠ '-')
    (hl : noDD l = true) : noDD (t ++ l) = true := by
  induction t with
  | nil => simpa
  | cons x xs ih =>
    have hx : x ≠ '-' := ht x (by simp)
    have hrec := ih (fun c hc => ht c (List.mem_cons_of_mem _ hc))
    simp only [List.cons_append, noDD, Bool.and_eq_true]
    refine ⟨?_, hrec⟩
    cases hh : (xs ++ l).head? with
    | none => rfl
    | some b => simp [hx]

theorem join_head_ne {t : List Char} {ts : List (List Char)}
    (h : ∀ t' ∈ t :: ts, ∀ c ∈ t', c ≠ '-')
    (hmid : ts.isEmpty = true ∨ t ≠ []) :
    (joinDash (t :: ts)).head? ≠ some '-' := by
  cases t with
  | cons x t' =>
    have hx : x ≠ '-' := h (x :: t') (by simp) x (by simp)
    cases ts with
    | nil => simpa [joinDash] using hx
    | cons u us =>
      rw [joinDash_cons_cons]
      simpa using hx
  | nil =>
    rcases hmid with hmid | hmid
    · cases ts with
      | nil => simp [joinDash]
      | cons u us => simp at hmid
    · exact absurd rfl hmid

theorem join_noDD : ∀ (T : List (List Char)),
    (∀ t ∈ T, ∀ c ∈ t, c ≠ '-') → midOK T = true →
    noDD (joinDash T) = true := by
  intro T
  induction T with
  | nil => intro _ _; rfl
  | cons t ts ih =>
    intro hdf hmid
    cases ts with
    | nil =>
      have := dashfree_append_noDD (t := t) (l := []) (hdf t (by simp)) rfl
      simpa using this
    | cons u us =>
      rw [joinDash_cons_cons]
      apply dashfree_append_noDD (hdf t (by simp))
      rw [midOK_cons₂, Bool.and_eq_true] at hmid
      have hJ : noDD (joinDash (u :: us)) = true :=
        ih (fun t' ht' => hdf t' (List.mem_cons_of_mem _ ht')) hmid.2
      have hhd : (joinDash (u :: us)).head? ≠ some '-' := by
        apply join_head_ne (fun t' ht' => hdf t' (List.mem_cons_of_mem _ ht'))
        rcases Bool.or_eq_true_iff.mp hmid.1 with h1 | h1
        · exact Or.inl h1
        · right
          intro hu
          rw [hu] at h1
          simp at h1
      simp only [noDD, Bool.and_eq_true]
      refine ⟨?_, hJ⟩
      cases hh : (joinDash (u :: us)).head? with
      | none => rfl
      | some b =>
        have hb : b ≠ '-' := by
          intro hbe
          subst hbe
          exact hhd hh
        simp [hb]

theorem trimEnd_nondash {l : List Char} (h : l.getLast? ≠ some '-') :
    trimEndDash l = l := by
  unfold trimEndDash
  cases hr : l.reverse with
  | nil =>
    have : l = [] := by simpa using congrArg List.reverse hr
    simp [this]
  | cons x xs =>
    have hx : x ≠ '-' := by
      intro hxe
      subst hxe
      apply h
      rw [← List.head?_reverse, hr]
      rfl
    rw [List.dropWhile_cons, if_neg (by simp [hx])]
    rw [← hr, List.reverse_reverse]

theorem trimEnd_append_dash (l : List Char) :
    trimEndDash (l ++ ['-']) = trimEndDash l := by
  unfold trimEndDash
  rw [List.reverse_append]
  simp [List.dropWhile_cons]

theorem dropWhile_self_idem (p : Char → Bool) (l : List Char) :
    (l.dropWhile p).dropWhile p = l.dropWhile p := by
  induction l with
  | nil => rfl
  | cons x xs ih =>
    by_cases hx : p x = true
    · rw [List.dropWhile_cons, if_pos hx, ih]
    · rw [List.dropWhile_cons, if_neg hx, List.dropWhile_cons, if_neg hx]

theorem trimEnd_idem (l : List Char) :
    trimEndDash (trimEndDash l) = trimEndDash l := by
  unfold trimEndDash
  rw [List.reverse_reverse, dropWhile_self_idem]

theorem mem_trimEnd {c : Char} {l : List Char} (h : c ∈ trimEndDash l) :
    c ∈ l := by
  unfold trimEndDash at h
  rw [List.mem_reverse] at h
  have := (List.dropWhile_sublist (l := l.reverse) (p := fun c => c == '-')).mem h
  rwa [List.mem_reverse] at this

theorem mem_joinDash {c : Char} : ∀ {T : List (List Char)},
    c ∈ joinDash T → (∃ t ∈ T, c ∈ t) ∨ c = '-' := by
  intro T
  induction T with
  | nil => intro h; simp [joinDash] at h
  | cons t ts ih =>
    intro h
    cases ts with
    | nil =>
      exact Or.inl ⟨t, by simp, by simpa [joinDash] using h⟩
    | cons u us =>
      rw [joinDash_cons_cons, List.mem_append] at h
      rcases h with h | h
      · exact Or.inl ⟨t, by simp, h⟩
      · rcases List.mem_cons.mp h with rfl | h
        · exact Or.inr rfl
        · rcases ih h with ⟨t', ht', hc⟩ | h
          · exact Or.inl ⟨t', List.mem_cons_of_mem _ ht', hc⟩
          · exact Or.inr h

theorem mem_strip {u : List Char} {T : List (List Char)}
    (h : u ∈ stripTrailingEmpties T) : u ∈ T := by
  unfold stripTrailingEmpties at h
  rw [List.mem_reverse] at h
  have := (List.dropWhile_sublist (l := T.reverse) (p := List.isEmpty)).mem h
  rwa [List.mem_reverse] at this

theorem strip_append_empty (T : List (List Char)) :
    stripTrailingEmpties (T ++ [[]]) = stripTrailingEmpties T := by
  unfold stripTrailingEmpties
  rw [List.reverse_append]
  simp [List.dropWhile_cons]

theorem strip_append_ne {t : List Char} (T : List (List Char)) (h : t ≠ []) :
    stripTrailingEmpties (T ++ [t]) = T ++ [t] := by
  unfold stripTrailingEmpties
  rw [List.reverse_append]
  have ht : t.isEmpty = false := by
    cases t
    · exact absurd rfl h
    · rfl
  simp only [List.reverse_cons, List.reverse_nil, List.nil_append,
    List.singleton_append, List.dropWhile_cons, ht]
  simp

theorem join_append_last {T : List (List Char)} (t : List Char) (h : T ≠ []) :
    joinDash (T ++ [t]) = joinDash T ++ '-' :: t := by
  induction T with
  | nil => exact absurd rfl h
  | cons a ts ih =>
    cases ts with
    | nil => rfl
    | cons b tb =>
      calc joinDash ((a :: b :: tb) ++ [t])
          = a ++ '-' :: joinDash ((b :: tb) ++ [t]) := rfl
        _ = a ++ '-' :: (joinDash (b :: tb) ++ '-' :: t) := by rw [ih (by simp)]
        _ = (a ++ '-' :: joinDash (b :: tb)) ++ '-' :: t := by simp
        _ = joinDash (a :: b :: tb) ++ '-' :: t := by rw [joinDash_cons_cons]

theorem trim_join_struct : ∀ (T : List (List Char)),
    (∀ t ∈ T, ∀ c ∈ t, c ≠ '-') →
    trimEndDash (joinDash T) = joinDash (stripTrailingEmpties T) := by
  intro T
  induction T using List.reverseRecOn with
  | nil => intro _; rfl
  | append_singleton T₀ t ih =>
    intro hdf
    rcases eq_or_ne t [] with rfl | htne
    · rcases eq_or_ne T₀ [] with rfl | hT
      · rfl
      · rw [join_append_last _ hT,
          show ('-' :: ([] : List Char)) = ['-'] from rfl,
          trimEnd_append_dash, strip_append_empty]
        exact ih (fun t' ht' => hdf t' (List.mem_append_left _ ht'))
    · rw [strip_append_ne _ htne]
      rcases eq_or_ne T₀ [] with rfl | hT
      · have hlast : t.getLast? ≠ some '-' := by
          cases hgl : t.getLast? with
          | none => simp
          | some a =>
            have ha := List.mem_of_getLast?_eq_some hgl
            have hne := hdf t (by simp) a ha
            intro hcon
            injection hcon with hc
            exact hne hc
        simp only [List.nil_append]
        rw [show joinDash [t] = t from rfl]
        exact trimEnd_nondash hlast
      · rw [join_append_last _ hT]
        have hlast : (joinDash T₀ ++ '-' :: t).getLast? ≠ some '-' := by
          rw [List.getLast?_append]
          have htl : ('-' :: t).getLast? = t.getLast? := by
            cases t
            · exact absurd rfl htne
            · rw [List.getLast?_cons_cons]
          rw [htl]
          cases hgl : t.getLast? with
          | none =>
            rw [List.getLast?_eq_none_iff] at hgl
            exact absurd hgl htne
          | some a =>
            have ha := List.mem_of_getLast?_eq_some hgl
            have hne := hdf t (List.mem_append_right _ (by simp)) a ha
            intro hcon
            simp only [Option.or_some, Option.some.injEq] at hcon
            exact hne hcon
        exact trimEnd_nondash hlast

theorem toTitle_idem (t : List Char) :
    toTitleCase (toTitleCase t) = toTitleCase t := by
  cases t with
  | nil => rfl
  | cons c cs =>
    simp only [toTitleCase, toUpper_idem, List.map_map]
    congr 1
    apply List.map_congr_left
    intro a _
    exact toLower_idem a

theorem toTitle_dashfree {t : List Char} (h : ∀ c ∈ t, c ≠ '-') :
    ∀ c ∈ toTitleCase t, c ≠ '-' := by
  cases t with
  | nil => simp [toTitleCase]
  | cons x xs =>
    intro c hc
    simp only [toTitleCase, List.mem_cons] at hc
    rcases hc with rfl | hc
    · exact toUpper_ne_dash (h x (by simp))
    · rw [List.mem_map] at hc
      obtain ⟨a, ha, rfl⟩ := hc
      exact toLower_ne_dash (h a (List.mem_cons_of_mem _ ha))

theorem toTitle_alnum {t : List Char} (h : ∀ c ∈ t, isAlnumA c = true) :
    ∀ c ∈ toTitleCase t, isAlnumA c = true := by
  cases t with
  | nil => simp [toTitleCase]
  | cons x xs =>
    intro c hc
    simp only [toTitleCase, List.mem_cons] at hc
    rcases hc with rfl | hc
    · exact isAlnumA_toUpper (h x (by simp))
    · rw [List.mem_map] at hc
      obtain ⟨a, ha, rfl⟩ := hc
      exact isAlnumA_toLower (h a (List.mem_cons_of_mem _ ha))

theorem toTitle_isEmpty (t : List Char) :
    (toTitleCase t).isEmpty = t.isEmpty := by
  cases t <;> rfl

theorem map_fix {f : List Char → List Char} :
    ∀ {l : List (List Char)}, (∀ t ∈ l, f t = t) → l.map f = l := by
  intro l
  induction l with
  | nil => intro _; rfl
  | cons a t ih =>
    intro h
    simp only [List.map_cons, h a (by simp),
      ih (fun u hu => h u (List.mem_cons_of_mem _ hu))]

theorem midOK_map_toTitle : ∀ (T : List (List Char)), midOK T = true →
    midOK (T.map toTitleCase) = true := by
  intro T
  induction T with
  | nil => intro _; rfl
  | cons a ts ih =>
    cases ts with
    | nil => intro _; rfl
    | cons t ts' =>
      intro h
      rw [midOK_cons₂, Bool.and_eq_true] at h
      simp only [List.map_cons]
      rw [midOK_cons₂, Bool.and_eq_true]
      refine ⟨?_, ih h.2⟩
      rcases Bool.or_eq_true_iff.mp h.1 with h1 | h1
      · rw [Bool.or_eq_true_iff]
        left
        cases ts' with
        | nil => rfl
        | cons u us => simp at h1
      · rw [Bool.or_eq_true_iff]
        right
        rw [Bool.not_eq_true', toTitle_isEmpty]
        rwa [Bool.not_eq_true'] at h1

theorem split_tokens_chars (sep : Char) :
    ∀ (l : List Char), ∀ t ∈ splitOnChar sep l, ∀ c ∈ t, c ∈ l ∧ c ≠ sep := by
  intro l
  induction l with
  | nil =>
    intro t ht c hc
    simp only [splitOnChar, splitOnCharCore] at ht
    rcases List.mem_cons.mp ht with rfl | h
    · simp at hc
    · simp at h
  | cons x xs ih =>
    intro t ht c hc
    by_cases hx : x = sep
    · subst hx
      simp only [splitOnChar, splitOnCharCore, if_pos rfl, List.mem_cons] at ht
      rcases ht with rfl | ht
      · simp at hc
      · have := ih t ht c hc
        exact ⟨List.mem_cons_of_mem _ this.1, this.2⟩
    · simp only [splitOnChar, splitOnCharCore, if_neg hx, List.mem_cons] at ht
      rcases ht with rfl | ht
      · rcases List.mem_cons.mp hc with rfl | hc
        · exact ⟨by simp, hx⟩
        · have := ih _ (by simp [splitOnChar]) c hc
          exact ⟨List.mem_cons_of_mem _ this.1, this.2⟩
      · have := ih t (by simp [splitOnChar, ht]) c hc
        exact ⟨List.mem_cons_of_mem _ this.1, this.2⟩

theorem midOK_append_last : ∀ (T : List (List Char)) (t : List Char),
    midOK (T ++ [t]) = true → midOK T = true := by
  intro T
  induction T with
  | nil => intro t _; rfl
  | cons a ts ih =>
    intro t h
    cases ts with
    | nil => rfl
    | cons b ts' =>
      rw [List.cons_append, List.cons_append, midOK_cons₂, Bool.and_eq_true] at h
      rw [midOK_cons₂, Bool.and_eq_true]
      constructor
      · rcases Bool.or_eq_true_iff.mp h.1 with h1 | h1
        · simp at h1
        · rw [Bool.or_eq_true_iff]
          exact Or.inr h1
      · exact ih t h.2

theorem midOK_strip : ∀ (T : List (List Char)), midOK T = true →
    midOK (stripTrailingEmpties T) = true := by
  intro T
  induction T using List.reverseRecOn with
  | nil => intro _; rfl
  | append_singleton T₀ t ih =>
    intro h
    rcases eq_or_ne t [] with rfl | hne
    · rw [strip_append_empty]
      exact ih (midOK_append_last T₀ [] h)
    · rwa [strip_append_ne _ hne]

theorem head?_dropWhile_false {p : List Char → Bool} :
    ∀ {l : List (List Char)} {a : List Char},
      (l.dropWhile p).head? = some a → p a = false := by
  intro l
  induction l with
  | nil => intro a h; simp at h
  | cons x xs ih =>
    intro a h
    by_cases hx : p x = true
    · rw [List.dropWhile_cons, if_pos hx] at h
      exact ih h
    · rw [List.dropWhile_cons, if_neg hx] at h
      simp only [List.head?_cons, Option.some.injEq] at h
      subst h
      simpa using hx

theorem strip_last_ne {T : List (List Char)} {u : List Char}
    (h : (stripTrailingEmpties T).getLast? = some u) : u ≠ [] := by
  unfold stripTrailingEmpties at h
  rw [List.getLast?_reverse] at h
  have := head?_dropWhile_false h
  intro hu
  subst hu
  simp at this

theorem join_getLast_ne {T : List (List Char)}
    (hdf : ∀ t ∈ T, ∀ c ∈ t, c ≠ '-')
    (hlast : ∀ u, T.getLast? = some u → u ≠ []) :
    (joinDash T).getLast? ≠ some '-' := by
  induction T using List.reverseRecOn with
  | nil => simp [joinDash]
  | append_singleton T₀ t ih =>
    have htne : t ≠ [] := hlast t (by simp [List.getLast?_concat])
    rcases eq_or_ne T₀ [] with rfl | hT
    · simp only [List.nil_append]
      rw [show joinDash [t] = t from rfl]
      cases hgl : t.getLast? with
      | none => simp
      | some a =>
        have ha := List.mem_of_getLast?_eq_some hgl
        have := hdf t (by simp) a ha
        intro hcon
        injection hcon with hc
        exact this hc
    · rw [join_append_last _ hT, List.getLast?_append]
      have htl : ('-' :: t).getLast? = t.getLast? := by
        cases t
        · exact absurd rfl htne
        · rw [List.getLast?_cons_cons]
      rw [htl]
      cases hgl : t.getLast? with
      | none =>
        rw [List.getLast?_eq_none_iff] at hgl
        exact absurd hgl htne
      | some a =>
        have ha := List.mem_of_getLast?_eq_some hgl
        have hne := hdf t (List.mem_append_right _ (by simp)) a ha
        intro hcon
        simp only [Option.or_some, Option.some.injEq] at hcon
        exact hne hcon

theorem sanitize_fix {x : List Char}
    (hchars : ∀ c ∈ x, isAlnumA c = true ∨ c = '-')
    (hnodd : noDD x = true)
    (hlast : x.getLast? ≠ some '-')
    (htokens : ∀ t ∈ splitOnChar '-' x, toTitleCase t = t) :
    sanitize_header_key ⟨x⟩ = ⟨x⟩ := by
  unfold sanitize_header_key
  have hcoll : collapseNonAlnum x = x := (collapseGo_fix x hchars hnodd).1
  rw [show (String.mk x).data = x from rfl]
  unfold collapseNonAlnum at hcoll
  rw [show collapseNonAlnum x = collapseGo false x from rfl, hcoll]
  rw [map_fix htokens, join_split]
  exact congrArg String.mk (trimEnd_nondash hlast)

theorem sanitize_nf (s : String) :
    (∀ c ∈ (sanitize_header_key s).data, isAlnumA c = true ∨ c = '-') ∧
    noDD (sanitize_header_key s).data = true ∧
    (sanitize_header_key s).data.getLast? ≠ some '-' ∧
    (∀ t ∈ splitOnChar '-' (sanitize_header_key s).data, toTitleCase t = t) := by
  have hx : (sanitize_header_key s).data =
      trimEndDash (joinDash ((splitOnChar '-' (collapseNonAlnum s.data)).map
        toTitleCase)) := rfl
  have htokall : ∀ u ∈ splitOnChar '-' (collapseNonAlnum s.data),
      ∀ c ∈ u, isAlnumA c = true := by
    intro u hu c hc
    have h2 := split_tokens_chars '-' _ u hu c hc
    rcases collapseGo_chars false s.data c h2.1 with h3 | h3
    · exact h3
    · exact absurd h3 h2.2
  have htokfree : ∀ t ∈ (splitOnChar '-' (collapseNonAlnum s.data)).map toTitleCase,
      ∀ c ∈ t, c ≠ '-' := by
    intro t ht c hc
    rw [List.mem_map] at ht
    obtain ⟨u, hu, rfl⟩ := ht
    refine toTitle_dashfree ?_ c hc
    intro d hd
    exact isAlnumA_ne_dash (htokall u hu d hd)
  have htokaln : ∀ t ∈ (splitOnChar '-' (collapseNonAlnum s.data)).map toTitleCase,
      ∀ c ∈ t, isAlnumA c = true := by
    intro t ht c hc
    rw [List.mem_map] at ht
    obtain ⟨u, hu, rfl⟩ := ht
    exact toTitle_alnum (htokall u hu) c hc
  have hmid : midOK ((splitOnChar '-' (collapseNonAlnum s.data)).map toTitleCase) = true :=
    midOK_map_toTitle _ (splitDash_midOK _ (collapseGo_noDD s.data).1)
  have hstruct := trim_join_struct _ htokfree
  have hstripfree : ∀ t ∈ stripTrailingEmpties
      ((splitOnChar '-' (collapseNonAlnum s.data)).map toTitleCase),
      ∀ c ∈ t, c ≠ '-' := fun t ht => htokfree t (mem_strip ht)
  refine ⟨?_, ?_, ?_, ?_⟩
  · intro c hc
    rw [hx] at hc
    rcases mem_joinDash (mem_trimEnd hc) with ⟨t, ht, hct⟩ | rfl
    · exact Or.inl (htokaln t ht c hct)
    · exact Or.inr rfl
  · rw [hx, hstruct]
    exact join_noDD _ hstripfree (midOK_strip _ hmid)
  · rw [hx, hstruct]
    exact join_getLast_ne hstripfree (fun u hu => strip_last_ne hu)
  · intro t ht
    rw [hx, hstruct] at ht
    rcases eq_or_ne (stripTrailingEmpties
        ((splitOnChar '-' (collapseNonAlnum s.data)).map toTitleCase)) [] with hS | hS
    · rw [hS] at ht
      simp only [joinDash, splitOnChar, splitOnCharCore, List.mem_cons] at ht
      rcases ht with rfl | ht
      · rfl
      · simp at ht
    · rw [split_join _ hS hstripfree] at ht
      have := mem_strip ht
      rw [List.mem_map] at this
      obtain ⟨u, _, rfl⟩ := this
      exact toTitle_idem u

/-- Lemma: `sanitize_header_key` is idempotent: canonical keys are fixed points. -/
theorem sanitize_idem (s : String) :
    sanitize_header_key (sanitize_header_key s) = sanitize_header_key s := by
  obtain ⟨h1, h2, h3, h4⟩ := sanitize_nf s
  have h5 := sanitize_fix h1 h2 h3 h4
  simpa using h5

theorem mem_insertAssoc {p : String × String} :
    ∀ {m : List (String × String)} {k v : String},
      p ∈ insertAssoc m k v → p = (k, v) ∨ p ∈ m := by
  intro m
  induction m with
  | nil =>
    intro k v h
    simp only [insertAssoc, List.mem_singleton] at h
    exact Or.inl h
  | cons q rest ih =>
    intro k v h
    simp only [insertAssoc] at h
    split at h
    · rcases List.mem_cons.mp h with rfl | hm
      · exact Or.inl rfl
      · exact Or.inr (List.mem_cons_of_mem _ hm)
    · rcases List.mem_cons.mp h with rfl | hm
      · exact Or.inr (by simp)
      · rcases ih hm with h1 | h1
        · exact Or.inl h1
        · exact Or.inr (List.mem_cons_of_mem _ h1)

theorem keys_insertAssoc (m : List (String × String)) (k v : String) :
    (insertAssoc m k v).map Prod.fst =
      if k ∈ m.map Prod.fst then m.map Prod.fst
      else m.map Prod.fst ++ [k] := by
  induction m with
  | nil => simp [insertAssoc]
  | cons q rest ih =>
    simp only [insertAssoc]
    by_cases hq : q.1 = k
    · rw [if_pos hq]
      simp only [List.map_cons]
      rw [if_pos (by simp [← hq])]
      simp [hq]
    · rw [if_neg hq]
      simp only [List.map_cons, ih]
      by_cases hk : k ∈ rest.map Prod.fst
      · rw [if_pos hk, if_pos (by simp [hk])]
      · rw [if_neg hk, if_neg (by simp [List.mem_cons, hk, Ne.symm hq])]
        simp

theorem nodup_keys_insertAssoc {m : List (String × String)} {k v : String}
    (h : (m.map Prod.fst).Nodup) :
    ((insertAssoc m k v).map Prod.fst).Nodup := by
  rw [keys_insertAssoc]
  split
  · exact h
  · rename_i hk
    simp only [List.nodup_append, List.nodup_singleton, true_and]
    exact ⟨h, by simpa using hk⟩

theorem build_keys_sanitized (code : Nat) (ops : List ROp) :
    ∀ p ∈ (build code ops).headers, sanitize_header_key p.1 = p.1 := by
  unfold build
  have main : ∀ (ops : List ROp) (r : HttpResponse),
      (∀ p ∈ r.headers, sanitize_header_key p.1 = p.1) →
      ∀ p ∈ (ops.foldl applyOp r).headers, sanitize_header_key p.1 = p.1 := by
    intro ops
    induction ops with
    | nil => intro r h; exact h
    | cons op rest ih =>
      intro r h
      refine ih (applyOp r op) ?_
      intro p hp
      cases op with
      | setStatus code => exact h p hp
      | setContentType ct => exact h p hp
      | setBody b => exact h p hp
      | addCookie c => exact h p hp
      | setHeader k v =>
        simp only [applyOp, HttpResponse.header] at hp
        rcases mem_insertAssoc hp with rfl | hm
        · exact sanitize_idem k
        · exact h p hm
  exact main ops (HttpResponse.new code) (by simp [HttpResponse.new])

theorem build_nodup_keys (code : Nat) (ops : List ROp) :
    ((build code ops).headers.map Prod.fst).Nodup := by
  unfold build
  have main : ∀ (ops : List ROp) (r : HttpResponse),
      (r.headers.map Prod.fst).Nodup →
      (((ops.foldl applyOp r).headers).map Prod.fst).Nodup := by
    intro ops
    induction ops with
    | nil => intro r h; exact h
    | cons op rest ih =>
      intro r h
      refine ih (applyOp r op) ?_
      cases op with
      | setStatus code => exact h
      | setContentType ct => exact h
      | setBody b => exact h
      | addCookie c => exact h
      | setHeader k v => exact nodup_keys_insertAssoc h
  exact main ops (HttpResponse.new code) (by simp [HttpResponse.new])

theorem orderedInsert_congr :
    ∀ (l : List (String × String)) (a : String × String),
      sanitize_header_key a.1 = a.1 →
      (∀ p ∈ l, sanitize_header_key p.1 = p.1) →
      List.orderedInsert keyLe a l = List.orderedInsert specKeyLe a l := by
  intro l
  induction l with
  | nil => intro a _ _; rfl
  | cons b t ih =>
    intro a ha hl
    have hb := hl b (by simp)
    have hiff : keyLe a b ↔ specKeyLe a b := by
      unfold keyLe specKeyLe
      rw [ha, hb]
    simp only [List.orderedInsert]
    by_cases h : keyLe a b
    · rw [if_pos h, if_pos (hiff.mp h)]
    · rw [if_neg h, if_neg (fun hc => h (hiff.mpr hc)),
        ih a ha (fun p hp => hl p (List.mem_cons_of_mem _ hp))]

theorem insertionSort_congr :
    ∀ (l : List (String × String)),
      (∀ p ∈ l, sanitize_header_key p.1 = p.1) →
      List.insertionSort keyLe l = List.insertionSort specKeyLe l := by
  intro l
  induction l with
  | nil => intro _; rfl
  | cons a t ih =>
    intro h
    simp only [List.insertionSort]
    rw [← ih (fun p hp => h p (List.mem_cons_of_mem _ hp))]
    refine orderedInsert_congr _ a (h a (by simp)) ?_
    intro p hp
    exact h p (List.mem_cons_of_mem _
      ((List.perm_insertionSort keyLe t).mem_iff.mp hp))

theorem lexLeB_cons (a b : Char) (as bs : List Char) :
    lexLeB (a :: as) (b :: bs) =
      if a < b then true else if b < a then false else lexLeB as bs := rfl

theorem lexLeB_refl : ∀ x, lexLeB x x = true := by
  intro x
  induction x with
  | nil => rfl
  | cons a as ih =>
    rw [lexLeB_cons, if_neg (lt_irrefl a), if_neg (lt_irrefl a)]
    exact ih

theorem lexLeB_total : ∀ x y, lexLeB x y = true ∨ lexLeB y x = true := by
  intro x
  induction x with
  | nil => intro y; exact Or.inl rfl
  | cons a as ih =>
    intro y
    cases y with
    | nil => exact Or.inr rfl
    | cons b bs =>
      rcases lt_trichotomy a b with hab | rfl | hab
      · exact Or.inl (by rw [lexLeB_cons, if_pos hab])
      · rw [lexLeB_cons, if_neg (lt_irrefl a), if_neg (lt_irrefl a),
          lexLeB_cons, if_neg (lt_irrefl a), if_neg (lt_irrefl a)]
        exact ih bs
      · exact Or.inr (by rw [lexLeB_cons, if_pos hab])

theorem lexLeB_antisymm : ∀ x y, lexLeB x y = true → lexLeB y x = true → x = y := by
  intro x
  induction x with
  | nil =>
    intro y _ h2
    cases y with
    | nil => rfl
    | cons b bs => simp [lexLeB] at h2
  | cons a as ih =>
    intro y h1 h2
    cases y with
    | nil => simp [lexLeB] at h1
    | cons b bs =>
      rcases lt_trichotomy a b with hab | rfl | hab
      · rw [lexLeB_cons, if_neg (lt_asymm hab), if_pos hab] at h2
        exact absurd h2 (by simp)
      · rw [lexLeB_cons, if_neg (lt_irrefl a), if_neg (lt_irrefl a)] at h1 h2
        rw [ih bs h1 h2]
      · rw [lexLeB_cons, if_neg (lt_asymm hab), if_pos hab] at h1
        exact absurd h1 (by simp)

theorem lexLeB_trans : ∀ x y z, lexLeB x y = true → lexLeB y z = true →
    lexLeB x z = true := by
  intro x
  induction x with
  | nil => intro y z _ _; rfl
  | cons a as ih =>
    intro y z h1 h2
    cases y with
    | nil => simp [lexLeB] at h1
    | cons b bs =>
      cases z with
      | nil => simp [lexLeB] at h2
      | cons c cs =>
        rcases lt_trichotomy a b with hab | rfl | hab
        · rcases lt_trichotomy b c with hbc | rfl | hbc
          · rw [lexLeB_cons, if_pos (lt_trans hab hbc)]
          · rw [lexLeB_cons, if_pos hab]
          · rw [lexLeB_cons, if_neg (lt_asymm hbc), if_pos hbc] at h2
            exact absurd h2 (by simp)
        · rcases lt_trichotomy a c with hac | rfl | hac
          · rw [lexLeB_cons, if_pos hac]
          · rw [lexLeB_cons, if_neg (lt_irrefl a), if_neg (lt_irrefl a)] at h1 h2 ⊢
            exact ih bs cs h1 h2
          · rw [lexLeB_cons, if_neg (lt_asymm hac), if_pos hac] at h2
            exact absurd h2 (by simp)
        · rw [lexLeB_cons, if_neg (lt_asymm hab), if_pos hab] at h1
          exact absurd h1 (by simp)

theorem sorted_perm_nodup_eq : ∀ {l₁ l₂ : List (String × String)},
    l₁.Perm l₂ → l₁.Sorted keyLe → l₂.Sorted keyLe →
    (l₁.map Prod.fst).Nodup → l₁ = l₂ := by
  intro l₁
  induction l₁ with
  | nil =>
    intro l₂ hp _ _ _
    exact hp.nil_eq
  | cons a t₁ ih =>
    intro l₂ hp h₁ h₂ hnd
    cases l₂ with
    | nil => exact absurd hp.symm.nil_eq (by simp)
    | cons b t₂ =>
      have hab : keyLe a b := by
        rcases List.mem_cons.mp (hp.symm.subset (List.mem_cons_self b t₂)) with
          heq | hmem
        · rw [heq]
          exact lexLeB_refl _
        · exact ((List.sorted_cons.mp h₁).1 b hmem)
      have hba : keyLe b a := by
        rcases List.mem_cons.mp (hp.subset (List.mem_cons_self a t₁)) with
          heq | hmem
        · rw [← heq]
          exact lexLeB_refl _
        · exact ((List.sorted_cons.mp h₂).1 a hmem)
      have hkey : a.1 = b.1 := String.ext (lexLeB_antisymm _ _ hab hba)
      have hae : a = b := by
        rcases List.mem_cons.mp (hp.subset (List.mem_cons_self a t₁)) with
          heq | hmem
        · exact heq
        · exfalso
          have hnd₂ : ((b :: t₂).map Prod.fst).Nodup :=
            ((hp.map Prod.fst).nodup_iff).mp hnd
          simp only [List.map_cons, List.nodup_cons] at hnd₂
          exact hnd₂.1 (hkey ▸ List.mem_map_of_mem Prod.fst hmem)
      subst hae
      have hp' := hp.cons_inv
      have h₁' := (List.sorted_cons.mp h₁).2
      have h₂' := (List.sorted_cons.mp h₂).2
      have hnd' : (t₁.map Prod.fst).Nodup := by
        simp only [List.map_cons, List.nodup_cons] at hnd
        exact hnd.2
      rw [ih hp' h₁' h₂' hnd']

theorem insertAssoc_comm (ka kb va vb : String) (h : ka ≠ kb) :
    ∀ m, (insertAssoc (insertAssoc m ka va) kb vb).Perm
      (insertAssoc (insertAssoc m kb vb) ka va) := by
  intro m
  induction m with
  | nil =>
    simp only [insertAssoc, if_neg h, if_neg (Ne.symm h)]
    exact List.Perm.swap _ _ _
  | cons q m' ih =>
    by_cases hqa : q.1 = ka
    · have e1 : insertAssoc (q :: m') ka va = (ka, va) :: m' := by
        simp [insertAssoc, hqa]
      have e2 : insertAssoc ((ka, va) :: m') kb vb =
          (ka, va) :: insertAssoc m' kb vb := by
        simp [insertAssoc, h]
      have e3 : insertAssoc (q :: m') kb vb = q :: insertAssoc m' kb vb := by
        simp [insertAssoc, hqa ▸ h]
      have e4 : insertAssoc (q :: insertAssoc m' kb vb) ka va =
          (ka, va) :: insertAssoc m' kb vb := by
        simp [insertAssoc, hqa]
      rw [e1, e2, e3, e4]
    · by_cases hqb : q.1 = kb
      · have e1 : insertAssoc (q :: m') ka va = q :: insertAssoc m' ka va := by
          simp [insertAssoc, hqa]
        have e2 : insertAssoc (q :: insertAssoc m' ka va) kb vb =
            (kb, vb) :: insertAssoc m' ka va := by
          simp [insertAssoc, hqb]
        have e3 : insertAssoc (q :: m') kb vb = (kb, vb) :: m' := by
          simp [insertAssoc, hqb]
        have e4 : insertAssoc ((kb, vb) :: m') ka va =
            (kb, vb) :: insertAssoc m' ka va := by
          simp [insertAssoc, Ne.symm h]
        rw [e1, e2, e3, e4]
      · have e1 : insertAssoc (insertAssoc (q :: m') ka va) kb vb =
            q :: insertAssoc (insertAssoc m' ka va) kb vb := by
          simp [insertAssoc, hqa, hqb]
        have e2 : insertAssoc (insertAssoc (q :: m') kb vb) ka va =
            q :: insertAssoc (insertAssoc m' kb vb) ka va := by
          simp [insertAssoc, hqa, hqb]
        rw [e1, e2]
        exact ih.cons q

theorem insertionSort_perm_nodup_eq {l₁ l₂ : List (String × String)}
    (hp : l₁.Perm l₂) (hnd : (l₁.map Prod.fst).Nodup) :
    List.insertionSort keyLe l₁ = List.insertionSort keyLe l₂ := by
  haveI : IsTotal (String × String) keyLe :=
    ⟨fun p q => lexLeB_total p.1.data q.1.data⟩
  haveI : IsTrans (String × String) keyLe :=
    ⟨fun p q r h1 h2 => lexLeB_trans p.1.data q.1.data r.1.data h1 h2⟩
  apply sorted_perm_nodup_eq
  · exact (List.perm_insertionSort keyLe l₁).trans
      (hp.trans (List.perm_insertionSort keyLe l₂).symm)
  · exact List.sorted_insertionSort keyLe l₁
  · exact List.sorted_insertionSort keyLe l₂
  · exact ((List.perm_insertionSort keyLe l₁).map Prod.fst).nodup_iff.mpr hnd

end Schnell

/-! ## Claim theorems -/
/-- C1 (code bug evidence): re-registering the existing `(GET, "/users")`
route does not replace it in place; `Vec::insert` shifts the old entry
right, so the table grows from one route to two and the stale handler
survives at index 1 — contradicting both the claim and the source's own
"already exists and will be overwritten" warning. -/
theorem c1_register_route_duplicate_inserts_instead_of_replacing :
    register_route [⟨.GET, "/users", (1 : Nat)⟩] "/users" .GET 2 =
      [⟨.GET, "/users", 2⟩, ⟨.GET, "/users", 1⟩] ∧
    (register_route [⟨.GET, "/users", (1 : Nat)⟩] "/users" .GET 2).length = 2 :=
  ⟨rfl, rfl⟩

/-- C2 (counterexample): with routes `[GET /users, POST /users]`, resolving
`(POST, /users)` returns `MethodNotAllowed` even though the exact match
`POST /users` sits later in the table — the scan does not continue past a
path-only match as the claim states. -/
theorem c2_resolve_stops_at_first_path_match_counterexample :
    resolve "/users" .POST [⟨.GET, "/users", (0 : Nat)⟩, ⟨.POST, "/users", 1⟩] =
      .error .MethodNotAllowed := rfl

/-- C2 (amended): the first route in registration order whose path matches
solely determines the outcome: it is returned if its method also matches,
otherwise the result is immediately `MethodNotAllowed`; `NotFound` is
returned if and only if no route's path matches. -/
theorem c2_resolve_first_path_match_decides {H : Type} (path : String)
    (m : HttpMethod) (routes : List (Route H)) :
    (resolve path m routes =
      match routes.find? (fun r => match_route r.path path) with
      | none => .error .NotFound
      | some r => if r.method = m then .ok r else .error .MethodNotAllowed) ∧
    (resolve path m routes = .error .NotFound ↔
      ∀ r ∈ routes, match_route r.path path = false) := by
  exact ⟨resolve_eq_find path m routes, resolve_notfound_iff path m routes⟩

/-- C4 (counterexample): the pattern `/users/:id` matches the path
`/users/`, whose final segment is empty — a `:`-wildcard segment does not
require a non-empty path segment as the claim states. -/
theorem c4_colon_segment_matches_empty_counterexample :
    match_route "/users/:id" "/users/" = true := rfl

/-- C4 (amended): matching splits pattern and path on `/`; there is a match
iff the segment sequences have equal length and, position by position, the
pattern segment starts with `:` (matching any single segment, including
the empty one) or equals the path segment literally; trailing slashes
change arity and never normalize — illustrated by the spec's examples. -/
theorem c4_match_route_segmentwise (pattern path : String) :
    (match_route pattern path = true ↔
      List.Forall₂ (fun rp ip => (startsWithColon rp || rp == ip) = true)
        (splitOnChar '/' pattern.data) (splitOnChar '/' path.data)) ∧
    match_route "/users/:id" "/users/123" = true ∧
    match_route "/users/:id" "/users" = false ∧
    match_route "/users/:id" "/users/123/extra" = false := by
  refine ⟨?_, rfl, rfl, rfl⟩
  rw [← zip_all_iff_forall₂ (fun rp ip => startsWithColon rp || rp == ip)]
  show (if (splitOnChar '/' pattern.data).length ≠ (splitOnChar '/' path.data).length
      then false
      else ((splitOnChar '/' pattern.data).zip (splitOnChar '/' path.data)).all
        fun p => startsWithColon p.1 || p.1 == p.2) = true ↔ _
  split
  · rename_i hne
    simp only [Bool.false_eq_true, false_iff, not_and]
    intro hlen
    exact absurd hlen hne
  · rename_i hne
    have hlen : (splitOnChar '/' pattern.data).length =
        (splitOnChar '/' path.data).length := by omega
    simp [hlen]

/-- C9: a request target without `?` still produces a non-empty query map:
the empty raw query string is split and inserted, giving exactly the
single entry `"" ↦ ""`; and any successfully parsed request has a
non-empty query map. -/
theorem c9_no_question_mark_query_map (target : String)
    (h : target.data.contains '?' = false) :
    parse_query (extract_query target).2 = [("", "")] ∧
    (∀ (c : Conn) (req : Request), Request.read c = .ok req → req.query ≠ []) := by
  constructor
  · unfold extract_query
    rw [splitOnceChar_eq_none h]
    rfl
  · intro c req hread
    obtain ⟨q, hq⟩ := read_ok_query hread
    rw [hq]
    exact parse_query_ne_nil q

/-- C9 witness: the concrete target `/about` has no `?` and yields the
single-entry query map. -/
theorem c9_witness : parse_query (extract_query "/about").2 = [("", "")] :=
  (c9_no_question_mark_query_map "/about" rfl).1

/-- C10: a `content-length` header whose value does not parse as a
non-negative integer (or parses to 0) is treated exactly like an absent
header: `parse_body` succeeds with an empty body, reads no bytes (the
connection state is returned unchanged) and returns no error. -/
theorem c10_unparsable_content_length_means_empty_body (c : Conn)
    (headers : List (String × String)) (v : String)
    (hlookup : lookupAssoc headers "content-length" = some v)
    (hparse : parseUsize v = none ∨ parseUsize v = some 0) :
    parse_body c headers = .ok ("", c) := by
  unfold parse_body
  rw [hlookup]
  rcases hparse with h | h <;> simp [h]

/-- C10 witness: the unparsable value `"abc"` yields an empty body and an
unchanged connection. -/
theorem c10_witness :
    parse_body (Conn.fresh "xyz".data .eof) [("content-length", "abc")] =
      .ok ("", Conn.fresh "xyz".data .eof) :=
  c10_unparsable_content_length_means_empty_body _ _ "abc" rfl (Or.inl rfl)

/-- C6 (counterexample): against a server with exactly `GET /` and
`GET /about` registered, the request bytes of the spec's end-to-end
example do not produce the claimed response bytes — the body
`<h1>About page</h1>` is 19 bytes, not 20, so the `Content-Length: 20`
in the claimed output is wrong. -/
theorem c6_end_to_end_counterexample :
    handle_connection exampleRoutes
        (Conn.fresh "GET /about HTTP/1.1\r\nHost: x\r\n\r\n".data .eof) ≠
      some "HTTP/1.1 200 OK\r\nContent-Type: text/html\r\nContent-Length: 20\r\n\r\n<h1>About page</h1>" := by
  intro hcontra
  have h19 : handle_connection exampleRoutes
      (Conn.fresh "GET /about HTTP/1.1\r\nHost: x\r\n\r\n".data .eof) =
      some "HTTP/1.1 200 OK\r\nContent-Type: text/html\r\nContent-Length: 19\r\n\r\n<h1>About page</h1>" := rfl
  rw [h19] at hcontra
  exact absurd (Option.some.inj hcontra) (by decide)

/-- C6 (amended): the same scenario produces exactly the claimed bytes
with the one correction `Content-Length: 19` (the body's true byte
length). -/
theorem c6_end_to_end :
    handle_connection exampleRoutes
        (Conn.fresh "GET /about HTTP/1.1\r\nHost: x\r\n\r\n".data .eof) =
      some "HTTP/1.1 200 OK\r\nContent-Type: text/html\r\nContent-Length: 19\r\n\r\n<h1>About page</h1>" := rfl

/-- C3 (counterexample): a caller can set `Content-Length` via
`with_header`, and the serialized response then contains that
caller-supplied `Content-Length: 999` line (after the serializer's own
computed `Content-Length: 0`), so the serialized response does not contain
a single Content-Length equal to the body length: a caller-supplied value
is emitted too. -/
theorem c3_caller_content_length_is_emitted :
    ((HttpResponse.new 200).with_header "Content-Length" "999").to_string =
      "HTTP/1.1 200 OK\r\nContent-Type: text/plain\r\nContent-Length: 0\r\nContent-Length: 999\r\n\r\n" := rfl

/-- C3 (amended): the serializer always emits its own `Content-Length`
header right after `Content-Type`, computed from the body's byte length,
and no header map contents — including a manually set `Content-Length` —
can change that computed line; a caller-supplied `Content-Length` is
however not suppressed: it additionally appears among the custom headers
(see the counterexample). -/
theorem c3_computed_content_length_unaffected_by_headers (r : HttpResponse)
    (hs : List (String × String)) :
    ∃ tail : List Char,
      (HttpResponse.to_string { r with headers := hs }).data =
        (HTTP_VERSION ++ " " ++ Nat.repr r.status_code ++ " "
          ++ get_status_text r.status_code ++ CRLF
          ++ "Content-Type: " ++ r.content_type ++ CRLF
          ++ "Content-Length: " ++ Nat.repr (utf8Len r.body) ++ CRLF).data ++ tail :=
  ⟨(String.join ((List.insertionSort keyLe hs).map (fun p => p.1 ++ ": " ++ p.2 ++ CRLF))
      ++ String.join (r.cookies.map (fun cookie => "Set-Cookie: " ++ cookie ++ CRLF))
      ++ CRLF ++ r.body).data, by
    simp [HttpResponse.to_string, String.data_append, List.append_assoc]⟩

/-- C7: with a declared, parseable `content-length` of `n` and fewer than
`n` bytes available before the stream's terminal event, `parse_body` never
returns a (truncated) body: it returns the classified terminal error —
`ConnectionClosed` for end-of-stream, `ConnectionTimedOut` for a timeout;
and any `Request` that `Request.read` does return carries a body of
exactly the declared length. -/
theorem c7_short_body_never_truncated (c : Conn)
    (headers : List (String × String)) (s : String) (n : Nat)
    (hlookup : lookupAssoc headers "content-length" = some s)
    (hparse : parseUsize s = some n)
    (hshort : c.buf.length + c.data.length < n) :
    parse_body c headers = .error (classifyIOErr c.ending) ∧
    (c.ending = .eof → parse_body c headers = .error .ConnectionClosed) ∧
    (c.ending = .timedOut → parse_body c headers = .error .ConnectionTimedOut) ∧
    (∀ b c₂, parse_body c headers ≠ .ok (b, c₂)) ∧
    (∀ (c₀ : Conn) (req : Request) (s' : String) (n' : Nat),
      Request.read c₀ = .ok req →
      lookupAssoc req.headers "content-length" = some s' →
      parseUsize s' = some n' → req.body.data.length = n') := by
  have hmain : parse_body c headers = .error (classifyIOErr c.ending) := by
    unfold parse_body
    rw [hlookup]
    simp only [Option.some_bind, hparse, Option.getD_some]
    rw [if_neg (by omega), if_neg (by simp; omega)]
  refine ⟨hmain, fun he => by rw [hmain, he]; rfl, fun he => by rw [hmain, he]; rfl,
    fun b c₂ hok => by rw [hmain] at hok; exact absurd hok (by simp), ?_⟩
  intro c₀ req s' n' hread hl' hp'
  obtain ⟨c', bs, hpb, hbody⟩ := read_ok_body hread
  rw [hbody]
  exact parse_body_ok_length (by rw [hpb]) hl' hp'

/-- C7 witness: a stream declaring `content-length: 5` that times out
after delivering 2 body bytes yields `ConnectionTimedOut`, not a
truncated request. -/
theorem c7_witness :
    parse_body (Conn.fresh "ab".data .timedOut) [("content-length", "5")] =
      .error .ConnectionTimedOut :=
  (c7_short_body_never_truncated (Conn.fresh "ab".data .timedOut)
    [("content-length", "5")] "5" 5 rfl rfl (by decide)).2.2.1 rfl

/-- C8 (code bug evidence): `Request::read` checks
`buffer.buffer().len() > 10 MiB` after the header loop, but that is the
`BufReader`'s internal unconsumed buffer, which never exceeds the 8 KiB
capacity — not the accumulated header bytes.  Consequently `read` never
returns `RequestTooLarge` on any stream, and oversized headers parse
normally, contradicting the claimed 10 MiB cap. -/
theorem c8_request_too_large_unreachable (data : List Char) (ending : EndKind) :
    Request.read (Conn.fresh data ending) ≠ .error .RequestTooLarge := by
  intro h
  unfold Request.read at h
  split at h
  · simp at h
  · rename_i e heq
    simp only [Except.error.injEq] at h
    exact read_lines_loop_error_ne heq h
  · simp at h
  · rename_i line0 restLines c' heq
    split at h
    · rename_i hbig
      have hcap : c'.buf.length ≤ BUF_CAP :=
        read_lines_loop_ok_buf (by simp [Conn.fresh]) heq
      have h1 : BUF_CAP = 8192 := rfl
      have h2 : TEN_MIB = 10485760 := rfl
      omega
    · split at h
      · rename_i e heq'
        simp only [Except.error.injEq] at h
        exact parse_request_line_error_ne heq' h
      · split at h
        · rename_i e heq'
          simp only [Except.error.injEq] at h
          exact parse_body_error_ne heq' h
        · simp at h

/-- C5: for every response built from `HttpResponse::new` by the pure
configuration steps (status, content type, body, canonicalizing header
insert, cookie), serialization follows the spec's fixed order — status
line, `Content-Type`, `Content-Length` from the body's byte length, the
custom headers sorted lexicographically by canonical key, `Set-Cookie`
lines in insertion order, blank line, body — and adding two headers with
distinct canonical keys in either order serializes identically. -/
theorem c5_serialization_deterministic_spec_order (code : Nat) (ops : List ROp) :
    (build code ops).to_string = specSerialize (build code ops) ∧
    (∀ k₁ v₁ k₂ v₂ : String,
      sanitize_header_key k₁ ≠ sanitize_header_key k₂ →
      (((build code ops).header k₁ v₁).header k₂ v₂).to_string =
        (((build code ops).header k₂ v₂).header k₁ v₁).to_string) := by
  constructor
  · unfold HttpResponse.to_string specSerialize
    rw [insertionSort_congr _ (build_keys_sanitized code ops)]
  · intro k₁ v₁ k₂ v₂ hne
    have hsort := insertionSort_perm_nodup_eq
      (insertAssoc_comm (sanitize_header_key k₁) (sanitize_header_key k₂) v₁ v₂
        hne ((build code ops).headers))
      (nodup_keys_insertAssoc (nodup_keys_insertAssoc (build_nodup_keys code ops)))
    simp only [HttpResponse.header, HttpResponse.to_string]
    rw [hsort]

/-- C5 witness: two concrete headers with distinct canonical keys added in
either order to a fresh 200 response serialize to the same bytes. -/
theorem c5_witness :
    (((build 200 []).header "X-B" "1").header "X-A" "2").to_string =
      (((build 200 []).header "X-A" "2").header "X-B" "1").to_string :=
  (c5_serialization_deterministic_spec_order 200 []).2 "X-B" "1" "X-A" "2"
    (by decide)
